import Mathlib

/-!
# The ownCloud resource-id codec of `pkg/utils/resourceid/owncloud.go`

A shallow embedding of `wrap`, `unwrap`, `OwnCloudResourceIDWrap` and
`OwnCloudResourceIDUnwrap`, together with the Go standard-library routines
they call: `base64.URLEncoding.EncodeToString`, `base64.URLEncoding.DecodeString`,
`strings.SplitN` and `utf8.ValidString`.

Go strings and byte slices are finite sequences of bytes; both are `List Byte`
here, so `string(b)` and `[]byte(s)` are the identity.
-/

/-- A Go `byte`: an unsigned 8-bit value. -/
abbrev Byte := Fin 256

/-- The bytes of an ASCII string literal (each character's code point, reduced
modulo 256; only used on literals whose characters are all below 128). -/
def ascii (s : String) : List Byte :=
  s.toList.map (fun c => Fin.ofNat c.toNat)

/-- The Go `error` values that `unwrap` can return. -/
inductive GoError where
  /-- `base64.CorruptInputError(offset)`. -/
  | CorruptInputError (offset : Int)
  /-- The value made by `errors.New(text)`. -/
  | errorString (text : String)
  deriving DecidableEq, Repr

deriving instance DecidableEq for Except

namespace base64

/-- The fields of `base64.Encoding`. `encode` is the 64-byte alphabet, `padChar`
is `none` for `NoPadding` (the rune -1); the 256-entry `decodeMap` of the Go
struct is the function `decodeMap` below. -/
structure Encoding where
  encode : List Byte
  padChar : Option Byte
  strict : Bool

/-- `const encodeURL`. -/
def encodeURL : List Byte :=
  ascii "ABCDEFGHIJKLMNOPQRSTUVWXYZabcdefghijklmnopqrstuvwxyz0123456789-_"

/-- `const StdPadding rune = '='`. -/
def StdPadding : Byte := 61

/-- `NewEncoding(encoder)`: padded with `StdPadding`, not strict. -/
def NewEncoding (encoder : List Byte) : Encoding :=
  { encode := encoder, padChar := some StdPadding, strict := false }

/-- `var URLEncoding = NewEncoding(encodeURL)`. -/
def URLEncoding : Encoding := NewEncoding encodeURL

/-- The table `enc.decodeMap` as `NewEncoding` fills it: every entry starts as
`0xFF`, then `decodeMap[encoder[i]] = byte(i)` for `i = 0, 1, ...` in order. -/
def decodeMap (enc : Encoding) (c : Byte) : Nat :=
  (List.range enc.encode.length).foldl
    (fun acc i => if enc.encode.get? i = some c then i % 256 else acc) 0xFF

/-- The lookup `enc.encode[i]`. -/
def encodeAt (enc : Encoding) (i : Nat) : Byte :=
  enc.encode.getD i 0

/-- The bytes `enc.padChar` contributes to the output (`NoPadding`: none). -/
def padBytes (enc : Encoding) (k : Nat) : List Byte :=
  match enc.padChar with
  | some p => List.replicate k p
  | none => []

/-- `(*Encoding).Encode`, returning the bytes written to `dst`: whole 3-byte
groups give 4 characters each, then the remaining 1 or 2 bytes give 2 or 3
characters and padding. -/
def Encode (enc : Encoding) : List Byte → List Byte
  | b0 :: b1 :: b2 :: rest =>
    let val := b0.val <<< 16 ||| b1.val <<< 8 ||| b2.val
    encodeAt enc (val >>> 18 &&& 0x3F) :: encodeAt enc (val >>> 12 &&& 0x3F) ::
      encodeAt enc (val >>> 6 &&& 0x3F) :: encodeAt enc (val &&& 0x3F) :: Encode enc rest
  | [b0, b1] =>
    let val := b0.val <<< 16 ||| b1.val <<< 8
    [encodeAt enc (val >>> 18 &&& 0x3F), encodeAt enc (val >>> 12 &&& 0x3F),
      encodeAt enc (val >>> 6 &&& 0x3F)] ++ padBytes enc 1
  | [b0] =>
    let val := b0.val <<< 16
    [encodeAt enc (val >>> 18 &&& 0x3F), encodeAt enc (val >>> 12 &&& 0x3F)] ++ padBytes enc 2
  | [] => []

/-- `(*Encoding).EncodeToString`. -/
def EncodeToString (enc : Encoding) (src : List Byte) : List Byte :=
  Encode enc src

/-- The loop `for si < len(src) && (src[si] == '\n' || src[si] == '\r') { si++ }`
on the unread input `src[si:]`. -/
def skipNewlines : List Byte → Nat → List Byte × Nat
  | [], si => ([], si)
  | c :: rest, si =>
    if c = 10 ∨ c = 13 then skipNewlines rest (si + 1) else (c :: rest, si)

/-- How the `for j` loop of `decodeQuantum` ends. -/
inductive LoopExit where
  /-- A `return si, 0, err` inside the loop. -/
  | ret (si : Nat) (rest : List Byte) (err : Option GoError)
  /-- The loop is left (by `break`, or because `j` reached 4) with `dlen`. -/
  | brk (si : Nat) (rest : List Byte) (dbuf : List Nat) (dlen : Nat) (err : Option GoError)

/-- The `for j := 0; j < len(dbuf); j++` loop of `decodeQuantum`, started at
`j` with the unread input `src[si:]` as first argument. -/
def quantumLoop (enc : Encoding) : List Byte → Nat → Nat → List Nat → LoopExit
  | [], si, j, dbuf =>
    if j = 0 then .ret si [] none
    else if j = 1 ∨ enc.padChar ≠ none then
      .ret si [] (some (.CorruptInputError ((si : Int) - j)))
    else .brk si [] dbuf j none
  | c :: rest, si0, j, dbuf =>
    let si := si0 + 1
    let out := decodeMap enc c
    if out ≠ 0xff then
      if j + 1 < 4 then quantumLoop enc rest si (j + 1) (dbuf.set j out)
      else .brk si rest (dbuf.set j out) 4 none
    else if c = 10 ∨ c = 13 then quantumLoop enc rest si j dbuf
    else if some c ≠ enc.padChar then
      .ret si rest (some (.CorruptInputError ((si : Int) - 1)))
    else
      -- the end is reached and there is padding
      let tail := fun (p : List Byte × Nat) =>
        let q := skipNewlines p.1 p.2
        LoopExit.brk q.2 q.1 dbuf j
          (if q.1 ≠ [] then some (.CorruptInputError q.2) else none)
      match j with
      | 0 => .ret si rest (some (.CorruptInputError ((si : Int) - 1)))
      | 1 => .ret si rest (some (.CorruptInputError ((si : Int) - 1)))
      | 2 =>
        match skipNewlines rest si with
        | ([], si2) => .ret si2 [] (some (.CorruptInputError si2))
        | (c2 :: rest2, si2) =>
          if some c2 ≠ enc.padChar then
            .ret si2 (c2 :: rest2) (some (.CorruptInputError ((si2 : Int) - 1)))
          else tail (rest2, si2 + 1)
      | _ => tail (rest, si)

/-- What `decodeQuantum` returns: the new read offset `nsi` with the unread
input `src[nsi:]`, the bytes written to `dst` (their number is Go's `n`), and
the error. -/
structure Quantum where
  nsi : Nat
  rest : List Byte
  dst : List Byte
  err : Option GoError

/-- `(*Encoding).decodeQuantum`, on the unread input `src[si:]`. -/
def decodeQuantum (enc : Encoding) (src : List Byte) (si : Nat) : Quantum :=
  match quantumLoop enc src si 0 [0, 0, 0, 0] with
  | .ret nsi rest err => ⟨nsi, rest, [], err⟩
  | .brk nsi rest dbuf dlen err =>
    -- Convert 4x 6bit source bytes into 3 bytes
    let val := dbuf.getD 0 0 <<< 18 ||| dbuf.getD 1 0 <<< 12 ||| dbuf.getD 2 0 <<< 6 |||
      dbuf.getD 3 0
    let d2 : Byte := Fin.ofNat (val >>> 0)
    let d1 : Byte := Fin.ofNat (val >>> 8)
    let d0 : Byte := Fin.ofNat (val >>> 16)
    match dlen with
    | 4 => ⟨nsi, rest, [d0, d1, d2], err⟩
    | 3 =>
      if enc.strict ∧ d2 ≠ 0 then ⟨nsi, rest, [], some (.CorruptInputError ((nsi : Int) - 1))⟩
      else ⟨nsi, rest, [d0, d1], err⟩
    | 2 =>
      if enc.strict ∧ (d1 ≠ 0 ∨ d2 ≠ 0) then
        ⟨nsi, rest, [], some (.CorruptInputError ((nsi : Int) - 2))⟩
      else ⟨nsi, rest, [d0], err⟩
    | _ => ⟨nsi, rest, [], err⟩

/-- The loop `for si < len(src) { si, ninc, err = enc.decodeQuantum(...) ... }` of
`(*Encoding).Decode`, with `dst` the bytes decoded so far. Each round reads at
least one byte; `fuel` bounds the number of rounds and `none` means the bound
was too small. The 8- and 4-character fast paths of `Decode` compute what
`decodeQuantum` computes on characters of the alphabet and are not modelled
apart. -/
def decodeLoop (enc : Encoding) : Nat → List Byte → Nat → List Byte →
    Option (List Byte × Option GoError)
  | _, [], _, dst => some (dst, none)
  | 0, _ :: _, _, _ => none
  | fuel + 1, c :: rest, si, dst =>
    let q := decodeQuantum enc (c :: rest) si
    match q.err with
    | some e => some (dst ++ q.dst, some e)
    | none => decodeLoop enc fuel q.rest q.nsi (dst ++ q.dst)

/-- `(*Encoding).DecodeString`: the decoded bytes `dbuf[:n]` and the error. -/
def DecodeString (enc : Encoding) (s : List Byte) : Option (List Byte × Option GoError) :=
  decodeLoop enc s.length s 0 []

end base64

namespace strings

/-- `strings.Index(s, sep)`: the offset of the first occurrence of `sep` in
`s`; `none` is Go's -1. -/
def Index : List Byte → List Byte → Option Nat
  | [], sep => if sep = [] then some 0 else none
  | c :: s, sep =>
    if sep.isPrefixOf (c :: s) then some 0 else (Index s sep).map (· + 1)

/-- The loop `for i < n { m := Index(s, sep); if m < 0 { break }; ... }` of
`genSplit`, followed by `a[i] = s`; the first argument is `n - i`. -/
def genSplitLoop (sep : List Byte) (sepSave : Nat) : Nat → List Byte → List (List Byte)
  | 0, s => [s]
  | k + 1, s =>
    match Index s sep with
    | none => [s]
    | some m => s.take (m + sepSave) :: genSplitLoop sep sepSave k (s.drop (m + sep.length))

/-- `strings.genSplit(s, sep, sepSave, n)` for a non-empty `sep` and `n ≥ 0`
(an empty `sep` goes to `explode` and a negative `n` counts the separators
first; `unwrap` calls it with `sep = ":"` and `n = 2`). -/
def genSplit (s sep : List Byte) (sepSave n : Nat) : List (List Byte) :=
  if n = 0 then []
  else
    let n := if n > s.length + 1 then s.length + 1 else n
    genSplitLoop sep sepSave (n - 1) s

/-- `strings.SplitN(s, sep, n)`. -/
def SplitN (s sep : List Byte) (n : Nat) : List (List Byte) :=
  genSplit s sep 0 n

end strings

namespace utf8

def RuneSelf : Nat := 0x80
def locb : Nat := 0x80
def hicb : Nat := 0xBF
def xx : Nat := 0xF1
def as : Nat := 0xF0
def s1 : Nat := 0x02
def s2 : Nat := 0x13
def s3 : Nat := 0x03
def s4 : Nat := 0x23
def s5 : Nat := 0x34
def s6 : Nat := 0x04
def s7 : Nat := 0x44

/-- The table `first`: information about the first byte of a UTF-8 sequence. -/
def first (b : Byte) : Nat :=
  if b.val < 0x80 then as
  else if b.val < 0xC2 then xx
  else if b.val < 0xE0 then s1
  else if b.val = 0xE0 then s2
  else if b.val < 0xED then s3
  else if b.val = 0xED then s4
  else if b.val < 0xF0 then s3
  else if b.val = 0xF0 then s5
  else if b.val < 0xF4 then s6
  else if b.val = 0xF4 then s7
  else xx

/-- An entry of `acceptRanges`: the range of valid values for the second byte. -/
structure acceptRange where
  lo : Nat
  hi : Nat

/-- The table `acceptRanges` (its entries 5 to 15 are zero). -/
def acceptRanges : List acceptRange :=
  [⟨locb, hicb⟩, ⟨0xA0, hicb⟩, ⟨locb, 0x9F⟩, ⟨0x90, hicb⟩, ⟨locb, 0x8F⟩]

/-- `utf8.ValidString(s)`. The loop variable `i` is the number of bytes already
dropped from the front of the argument; the ASCII fast path at the start of the
Go function accepts only bytes that the main loop skips one by one. -/
def ValidString : List Byte → Bool
  | [] => true
  | si :: rest =>
    if si.val < RuneSelf then ValidString rest
    else
      let x := first si
      if x = xx then false -- Illegal starter byte.
      else
        let size := x &&& 7
        if 1 + rest.length < size then false -- Short or invalid.
        else
          let accept := acceptRanges.getD (x >>> 4) ⟨0, 0⟩
          match rest with
          | [] => false
          | c1 :: rest1 =>
            if c1.val < accept.lo ∨ accept.hi < c1.val then false
            else if size = 2 then ValidString rest1
            else
              match rest1 with
              | [] => false
              | c2 :: rest2 =>
                if c2.val < locb ∨ hicb < c2.val then false
                else if size = 3 then ValidString rest2
                else
                  match rest2 with
                  | [] => false
                  | c3 :: rest3 =>
                    if c3.val < locb ∨ hicb < c3.val then false
                    else ValidString rest3

end utf8

namespace resourceid

/-- `const idDelimiter string = ":"`. -/
def idDelimiter : List Byte := [58]

/-- The two string fields of `provider.ResourceId`. -/
structure ResourceId where
  StorageId : List Byte
  OpaqueId : List Byte
  deriving DecidableEq, Repr

/-- `wrap(sid, oid)`. -/
def wrap (sid oid : List Byte) : List Byte :=
  base64.EncodeToString base64.URLEncoding (sid ++ idDelimiter ++ oid)

/-- `unwrap(rid)`: `.ok r` is the Go result `(&r, nil)` and `.error e` is
`(nil, e)`; `none` only if the decoding loop ran out of fuel. -/
def unwrap (rid : List Byte) : Option (Except GoError ResourceId) :=
  match base64.DecodeString base64.URLEncoding rid with
  | none => none
  | some (_, some err) => some (.error err)
  | some (decodedID, none) =>
    match strings.SplitN decodedID idDelimiter 2 with
    | [part0, part1] =>
      if !utf8.ValidString part0 || !utf8.ValidString part1 then
        some (.error (.errorString "invalid utf8 string found"))
      else
        some (.ok { StorageId := part0, OpaqueId := part1 })
    | _ => some (.error (.errorString "could not find two parts with given delimiter"))

/-- `OwnCloudResourceIDUnwrap(rid)`: `some none` is the nil pointer. -/
def OwnCloudResourceIDUnwrap (rid : List Byte) : Option (Option ResourceId) :=
  match unwrap rid with
  | none => none
  | some (.error _) => some none
  | some (.ok id) => some (some id)

/-- `OwnCloudResourceIDWrap(r)` for a non-nil `r` (a nil `r` panics). -/
def OwnCloudResourceIDWrap (r : ResourceId) : List Byte :=
  wrap r.StorageId r.OpaqueId

/-- The two values `unwrap(rid)` returns, statement by statement as the Go
function returns them: the pointer (`none` is nil) and the error (`none` is
nil). The outer `none` is as for `unwrap`. -/
def unwrapValues (rid : List Byte) : Option (Option ResourceId × Option GoError) :=
  match base64.DecodeString base64.URLEncoding rid with
  | none => none
  | some (decodedID, err) =>
    if err ≠ none then some (none, err)
    else
      let parts := strings.SplitN decodedID idDelimiter 2
      if parts.length ≠ 2 then
        some (none, some (.errorString "could not find two parts with given delimiter"))
      else if !utf8.ValidString (parts.getD 0 []) || !utf8.ValidString (parts.getD 1 []) then
        some (none, some (.errorString "invalid utf8 string found"))
      else
        some (some { StorageId := parts.getD 0 [], OpaqueId := parts.getD 1 [] }, none)

end resourceid

namespace rfc4648

/-- Specification (RFC 4648): the eight bits of an 8-bit input group, most
significant bit first. -/
def bitsOf (b : Byte) : List Nat :=
  [b.val / 128 % 2, b.val / 64 % 2, b.val / 32 % 2, b.val / 16 % 2,
   b.val / 8 % 2, b.val / 4 % 2, b.val / 2 % 2, b.val % 2]

/-- Specification (RFC 4648): the number a group of bits denotes, read most
significant bit first. -/
def valueOf (bits : List Nat) : Nat :=
  bits.foldl (fun n b => 2 * n + b) 0

/-- Specification (RFC 4648, section 5, table 2): the "URL and Filename safe"
base 64 alphabet, values 0-25 are `A`-`Z`, 26-51 are `a`-`z`, 52-61 are
`0`-`9`, 62 is `-` and 63 is `_`. -/
def alphabet (v : Nat) : Byte :=
  if v < 26 then Fin.ofNat (65 + v)
  else if v < 52 then Fin.ofNat (97 + (v - 26))
  else if v < 62 then Fin.ofNat (48 + (v - 52))
  else if v = 62 then 45
  else 95

/-- Specification (RFC 4648, section 4): the input bits, left to right, as
6-bit groups; when fewer than 6 bits remain at the end, bits with value zero
are added on the right. -/
def sixBitGroups : List Nat → List (List Nat)
  | x0 :: x1 :: x2 :: x3 :: x4 :: x5 :: rest => [x0, x1, x2, x3, x4, x5] :: sixBitGroups rest
  | [] => []
  | x0 :: rest => [(x0 :: rest ++ [0, 0, 0, 0, 0]).take 6]

/-- Specification (RFC 4648, sections 4 and 5): the padded URL-safe base 64
encoding. Each 6-bit group is translated into one character of the alphabet;
a final quantum of 8 bits gives two characters followed by two `=`, one of 16
bits gives three characters followed by one `=`. -/
def base64urlEncode (bs : List Byte) : List Byte :=
  (sixBitGroups (bs.flatMap bitsOf)).map (fun g => alphabet (valueOf g)) ++
    (match bs.length % 3 with
     | 1 => [61, 61]
     | 2 => [61]
     | _ => [])

end rfc4648

/-- Specification helper: a token without its `'\r'` and `'\n'` characters
(the characters the decoder skips). -/
def withoutNewlines (t : List Byte) : List Byte :=
  t.filter (fun c => decide (c ≠ 10 ∧ c ≠ 13))

open base64 strings utf8 resourceid

/-! ## Bit arithmetic of one base64 group -/

theorem or_eq_add (i a b x : Nat) (hx : x = 2 ^ i * a) (hb : b < 2 ^ i) : x ||| b = x + b := by
  subst hx; exact (Nat.mul_add_lt_is_or hb a).symm

theorem group_val (b0 b1 b2 : Nat) (h1 : b1 < 256) (h2 : b2 < 256) :
    b0 <<< 16 ||| b1 <<< 8 ||| b2 = b0 * 65536 + b1 * 256 + b2 := by
  rw [Nat.shiftLeft_eq, Nat.shiftLeft_eq,
    or_eq_add 16 b0 (b1 * 2 ^ 8) _ (by ring) (by omega),
    or_eq_add 8 (b0 * 256 + b1) b2 _ (by ring) (by omega)]

theorem group2_val (b0 b1 : Nat) (h1 : b1 < 256) :
    b0 <<< 16 ||| b1 <<< 8 = b0 * 65536 + b1 * 256 := by
  rw [Nat.shiftLeft_eq, Nat.shiftLeft_eq, or_eq_add 16 b0 (b1 * 2 ^ 8) _ (by ring) (by omega)]

theorem sextets_val (c0 c1 c2 c3 : Nat) (h1 : c1 < 64) (h2 : c2 < 64) (h3 : c3 < 64) :
    c0 <<< 18 ||| c1 <<< 12 ||| c2 <<< 6 ||| c3 = c0 * 262144 + c1 * 4096 + c2 * 64 + c3 := by
  rw [Nat.shiftLeft_eq, Nat.shiftLeft_eq, Nat.shiftLeft_eq,
    or_eq_add 18 c0 (c1 * 2 ^ 12) _ (by ring) (by omega),
    or_eq_add 12 (c0 * 64 + c1) (c2 * 2 ^ 6) _ (by ring) (by omega),
    or_eq_add 6 (c0 * 4096 + c1 * 64 + c2) c3 _ (by ring) (by omega)]

theorem and_63 (x : Nat) : x &&& 0x3F = x % 64 := Nat.and_pow_two_sub_one_eq_mod x 6

theorem and_63_lt (x : Nat) : x &&& 0x3F < 64 := by rw [and_63]; omega

/-! ## The alphabet and the decoding table of `URLEncoding` -/

theorem decodeMap_encodeAt :
    ∀ i : Fin 64, decodeMap URLEncoding (encodeAt URLEncoding i) = i := by
  decide

theorem decodeMap_pad : decodeMap URLEncoding 61 = 0xff := by decide

theorem decodeMap_ne_iff : ∀ c : Byte, decodeMap URLEncoding c ≠ 0xff ↔ c ∈ encodeURL := by
  decide!

theorem encodeURL_not_special : ∀ c ∈ encodeURL, c ≠ (10 : Byte) ∧ c ≠ 13 ∧ c ≠ 61 := by
  decide!

theorem encodeAt_mem : ∀ i : Fin 64, encodeAt URLEncoding i ∈ encodeURL := by decide

theorem encodeURL_chars : ∀ c ∈ encodeURL,
    (65 ≤ c.val ∧ c.val ≤ 90) ∨ (97 ≤ c.val ∧ c.val ≤ 122) ∨ (48 ≤ c.val ∧ c.val ≤ 57) ∨
      c.val = 95 ∨ c.val = 45 := by decide!

/-! ## Decoding what `Encode` wrote -/

theorem quantumLoop_four (c0 c1 c2 c3 : Nat) (h0 : c0 < 64) (h1 : c1 < 64) (h2 : c2 < 64)
    (h3 : c3 < 64) (rest : List Byte) (si : Nat) :
    quantumLoop URLEncoding
        (encodeAt URLEncoding c0 :: encodeAt URLEncoding c1 :: encodeAt URLEncoding c2 ::
          encodeAt URLEncoding c3 :: rest) si 0 [0, 0, 0, 0] =
      .brk (si + 4) rest [c0, c1, c2, c3] 4 none := by
  have e0 := decodeMap_encodeAt ⟨c0, h0⟩
  have e1 := decodeMap_encodeAt ⟨c1, h1⟩
  have e2 := decodeMap_encodeAt ⟨c2, h2⟩
  have e3 := decodeMap_encodeAt ⟨c3, h3⟩
  simp only at e0 e1 e2 e3
  simp only [quantumLoop, e0, e1, e2, e3]
  have n0 : c0 ≠ 255 := by omega
  have n1 : c1 ≠ 255 := by omega
  have n2 : c2 ≠ 255 := by omega
  have n3 : c3 ≠ 255 := by omega
  simp [n0, n1, n2, n3]

theorem decodeQuantum_group (b0 b1 b2 : Byte) (rest : List Byte) (si : Nat) :
    decodeQuantum URLEncoding
      (encodeAt URLEncoding ((b0.val <<< 16 ||| b1.val <<< 8 ||| b2.val) >>> 18 &&& 0x3F) ::
       encodeAt URLEncoding ((b0.val <<< 16 ||| b1.val <<< 8 ||| b2.val) >>> 12 &&& 0x3F) ::
       encodeAt URLEncoding ((b0.val <<< 16 ||| b1.val <<< 8 ||| b2.val) >>> 6 &&& 0x3F) ::
       encodeAt URLEncoding ((b0.val <<< 16 ||| b1.val <<< 8 ||| b2.val) &&& 0x3F) :: rest) si
      = ⟨si + 4, rest, [b0, b1, b2], none⟩ := by
  unfold decodeQuantum
  rw [quantumLoop_four _ _ _ _ (and_63_lt _) (and_63_lt _) (and_63_lt _) (and_63_lt _)]
  have h0 := b0.isLt
  have h1 := b1.isLt
  have h2 := b2.isLt
  simp only [List.getD_cons_zero, List.getD_cons_succ, Quantum.mk.injEq, true_and, and_true]
  rw [sextets_val _ _ _ _ (and_63_lt _) (and_63_lt _) (and_63_lt _)]
  simp only [and_63, Nat.shiftRight_eq_div_pow, group_val _ _ _ h1 h2]
  simp only [List.cons.injEq, and_true]
  refine ⟨?_, ?_, ?_⟩ <;> (apply Fin.ext; simp only [Fin.ofNat, Fin.val_mk]; omega)

theorem decodeQuantum_two (b0 b1 : Byte) (si : Nat) :
    decodeQuantum URLEncoding
      [encodeAt URLEncoding ((b0.val <<< 16 ||| b1.val <<< 8) >>> 18 &&& 0x3F),
       encodeAt URLEncoding ((b0.val <<< 16 ||| b1.val <<< 8) >>> 12 &&& 0x3F),
       encodeAt URLEncoding ((b0.val <<< 16 ||| b1.val <<< 8) >>> 6 &&& 0x3F), 61] si
      = ⟨si + 4, [], [b0, b1], none⟩ := by
  have e0 := decodeMap_encodeAt ⟨_, and_63_lt ((b0.val <<< 16 ||| b1.val <<< 8) >>> 18)⟩
  have e1 := decodeMap_encodeAt ⟨_, and_63_lt ((b0.val <<< 16 ||| b1.val <<< 8) >>> 12)⟩
  have e2 := decodeMap_encodeAt ⟨_, and_63_lt ((b0.val <<< 16 ||| b1.val <<< 8) >>> 6)⟩
  have n0 := and_63_lt ((b0.val <<< 16 ||| b1.val <<< 8) >>> 18)
  have n1 := and_63_lt ((b0.val <<< 16 ||| b1.val <<< 8) >>> 12)
  have n2 := and_63_lt ((b0.val <<< 16 ||| b1.val <<< 8) >>> 6)
  simp only at e0 e1 e2
  have h0 := b0.isLt
  have h1 := b1.isLt
  have hp : URLEncoding.padChar = some 61 := rfl
  have q : quantumLoop URLEncoding
      [encodeAt URLEncoding ((b0.val <<< 16 ||| b1.val <<< 8) >>> 18 &&& 0x3F),
       encodeAt URLEncoding ((b0.val <<< 16 ||| b1.val <<< 8) >>> 12 &&& 0x3F),
       encodeAt URLEncoding ((b0.val <<< 16 ||| b1.val <<< 8) >>> 6 &&& 0x3F), 61] si 0 [0, 0, 0, 0]
      = .brk (si + 4) [] [(b0.val <<< 16 ||| b1.val <<< 8) >>> 18 &&& 0x3F,
          (b0.val <<< 16 ||| b1.val <<< 8) >>> 12 &&& 0x3F,
          (b0.val <<< 16 ||| b1.val <<< 8) >>> 6 &&& 0x3F, 0] 3 none := by
    simp only [quantumLoop, e0, e1, e2, decodeMap_pad, hp, skipNewlines]
    have m0 : (b0.val <<< 16 ||| b1.val <<< 8) >>> 18 &&& 0x3F ≠ 255 := by omega
    have m1 : (b0.val <<< 16 ||| b1.val <<< 8) >>> 12 &&& 0x3F ≠ 255 := by omega
    have m2 : (b0.val <<< 16 ||| b1.val <<< 8) >>> 6 &&& 0x3F ≠ 255 := by omega
    simp [m0, m1, m2]
  unfold decodeQuantum
  rw [q]
  simp only [List.getD_cons_zero, List.getD_cons_succ, Quantum.mk.injEq, true_and, and_true]
  rw [sextets_val _ _ _ _ (and_63_lt _) (and_63_lt _) (by omega)]
  simp only [and_63, Nat.shiftRight_eq_div_pow, group2_val _ _ h1]
  have hs : URLEncoding.strict = false := rfl
  simp only [hs, Bool.false_eq_true, false_and, ite_false, Quantum.mk.injEq, true_and, and_true,
    List.cons.injEq]
  refine ⟨?_, ?_⟩ <;> (apply Fin.ext; simp only [Fin.ofNat, Fin.val_mk]; omega)

theorem decodeQuantum_one (b0 : Byte) (si : Nat) :
    decodeQuantum URLEncoding
      [encodeAt URLEncoding ((b0.val <<< 16) >>> 18 &&& 0x3F),
       encodeAt URLEncoding ((b0.val <<< 16) >>> 12 &&& 0x3F), 61, 61] si
      = ⟨si + 4, [], [b0], none⟩ := by
  have e0 := decodeMap_encodeAt ⟨_, and_63_lt ((b0.val <<< 16) >>> 18)⟩
  have e1 := decodeMap_encodeAt ⟨_, and_63_lt ((b0.val <<< 16) >>> 12)⟩
  have n0 := and_63_lt ((b0.val <<< 16) >>> 18)
  have n1 := and_63_lt ((b0.val <<< 16) >>> 12)
  simp only at e0 e1
  have h0 := b0.isLt
  have hp : URLEncoding.padChar = some 61 := rfl
  have q : quantumLoop URLEncoding
      [encodeAt URLEncoding ((b0.val <<< 16) >>> 18 &&& 0x3F),
       encodeAt URLEncoding ((b0.val <<< 16) >>> 12 &&& 0x3F), 61, 61] si 0 [0, 0, 0, 0]
      = .brk (si + 4) [] [(b0.val <<< 16) >>> 18 &&& 0x3F,
          (b0.val <<< 16) >>> 12 &&& 0x3F, 0, 0] 2 none := by
    simp only [quantumLoop, e0, e1, decodeMap_pad, hp, skipNewlines]
    have m0 : (b0.val <<< 16) >>> 18 &&& 0x3F ≠ 255 := by omega
    have m1 : (b0.val <<< 16) >>> 12 &&& 0x3F ≠ 255 := by omega
    simp [m0, m1, skipNewlines]
  unfold decodeQuantum
  rw [q]
  simp only [List.getD_cons_zero, List.getD_cons_succ, Quantum.mk.injEq, true_and, and_true]
  rw [sextets_val _ _ _ _ (and_63_lt _) (by omega) (by omega)]
  simp only [and_63, Nat.shiftRight_eq_div_pow, Nat.shiftLeft_eq]
  have hs : URLEncoding.strict = false := rfl
  simp only [hs, Bool.false_eq_true, false_and, ite_false, Quantum.mk.injEq, true_and, and_true,
    List.cons.injEq]
  apply Fin.ext; simp only [Fin.ofNat, Fin.val_mk]; omega

theorem decodeLoop_Encode (bs : List Byte) : ∀ (fuel si : Nat) (dst : List Byte),
    bs.length ≤ 3 * fuel →
    decodeLoop URLEncoding fuel (Encode URLEncoding bs) si dst = some (dst ++ bs, none) := by
  induction bs using Encode.induct URLEncoding with
  | case1 b0 b1 b2 rest ih =>
    intro fuel si dst hf
    cases fuel with
    | zero => simp at hf
    | succ fuel =>
      simp only [Encode, decodeLoop]
      rw [decodeQuantum_group]
      simp only [List.length_cons] at hf
      simp only [ih fuel (si + 4) (dst ++ [b0, b1, b2]) (by omega)]
      simp
  | case2 b0 b1 =>
    intro fuel si dst hf
    cases fuel with
    | zero => simp at hf
    | succ fuel =>
      have hE : Encode URLEncoding [b0, b1] =
          [encodeAt URLEncoding ((b0.val <<< 16 ||| b1.val <<< 8) >>> 18 &&& 0x3F),
           encodeAt URLEncoding ((b0.val <<< 16 ||| b1.val <<< 8) >>> 12 &&& 0x3F),
           encodeAt URLEncoding ((b0.val <<< 16 ||| b1.val <<< 8) >>> 6 &&& 0x3F), 61] := rfl
      rw [hE]
      simp only [decodeLoop]
      rw [decodeQuantum_two]
      simp [decodeLoop]
  | case3 b0 =>
    intro fuel si dst hf
    cases fuel with
    | zero => simp at hf
    | succ fuel =>
      have hE : Encode URLEncoding [b0] =
          [encodeAt URLEncoding ((b0.val <<< 16) >>> 18 &&& 0x3F),
           encodeAt URLEncoding ((b0.val <<< 16) >>> 12 &&& 0x3F), 61, 61] := rfl
      rw [hE]
      simp only [decodeLoop]
      rw [decodeQuantum_one]
      simp [decodeLoop]
  | case4 =>
    intro fuel si dst _
    simp [Encode, decodeLoop]

theorem Encode_length (bs : List Byte) :
    (Encode URLEncoding bs).length = 4 * ((bs.length + 2) / 3) := by
  induction bs using Encode.induct URLEncoding with
  | case1 b0 b1 b2 rest ih => simp only [Encode, List.length_cons, ih]; omega
  | case2 b0 b1 => simp [Encode, padBytes, URLEncoding, NewEncoding]
  | case3 b0 => simp [Encode, padBytes, URLEncoding, NewEncoding]
  | case4 => rfl

theorem DecodeString_EncodeToString (bs : List Byte) :
    DecodeString URLEncoding (EncodeToString URLEncoding bs) = some (bs, none) := by
  unfold DecodeString EncodeToString
  rw [decodeLoop_Encode bs _ 0 [] (by rw [Encode_length]; omega)]
  simp

theorem EncodeToString_injective (x y : List Byte)
    (h : EncodeToString URLEncoding x = EncodeToString URLEncoding y) : x = y := by
  have hx := DecodeString_EncodeToString x
  rw [h, DecodeString_EncodeToString y] at hx
  simpa using hx.symm

theorem Encode_shape (bs : List Byte) :
    ∃ body pad, Encode URLEncoding bs = body ++ pad ∧ (∀ c ∈ body, c ∈ encodeURL) ∧
      (pad = [] ∨ pad = [61] ∨ pad = [61, 61]) := by
  induction bs using Encode.induct URLEncoding with
  | case1 b0 b1 b2 rest ih =>
    obtain ⟨body, pad, e, hb, hp⟩ := ih
    refine ⟨_ :: _ :: _ :: _ :: body, pad, by simp only [Encode, e]; rfl, ?_, hp⟩
    intro c hc
    simp only [List.mem_cons] at hc
    rcases hc with hc | hc | hc | hc | hc
    · rw [hc]; exact encodeAt_mem ⟨_, and_63_lt _⟩
    · rw [hc]; exact encodeAt_mem ⟨_, and_63_lt _⟩
    · rw [hc]; exact encodeAt_mem ⟨_, and_63_lt _⟩
    · rw [hc]; exact encodeAt_mem ⟨_, and_63_lt _⟩
    · exact hb c hc
  | case2 b0 b1 =>
    refine ⟨[_, _, _], [61], rfl, ?_, Or.inr (Or.inl rfl)⟩
    intro c hc
    simp only [List.mem_cons, List.mem_singleton, List.not_mem_nil, or_false] at hc
    rcases hc with hc | hc | hc
    · rw [hc]; exact encodeAt_mem ⟨_, and_63_lt _⟩
    · rw [hc]; exact encodeAt_mem ⟨_, and_63_lt _⟩
    · rw [hc]; exact encodeAt_mem ⟨_, and_63_lt _⟩
  | case3 b0 =>
    refine ⟨[_, _], [61, 61], rfl, ?_, Or.inr (Or.inr rfl)⟩
    intro c hc
    simp only [List.mem_cons, List.mem_singleton, List.not_mem_nil, or_false] at hc
    rcases hc with hc | hc
    · rw [hc]; exact encodeAt_mem ⟨_, and_63_lt _⟩
    · rw [hc]; exact encodeAt_mem ⟨_, and_63_lt _⟩
  | case4 => exact ⟨[], [], rfl, by simp, Or.inl rfl⟩

/-! ## `Encode` and RFC 4648 -/

theorem alphabet_eq_encodeAt : ∀ i : Fin 64, rfc4648.alphabet i = encodeAt URLEncoding i := by
  decide

theorem alphabet_sextet (v x : Nat) (h : v = x % 64) :
    rfc4648.alphabet v = encodeAt URLEncoding (x &&& 0x3F) := by
  rw [and_63, ← h]
  exact alphabet_eq_encodeAt ⟨v, by omega⟩

theorem bits_sum_fin : ∀ b : Fin 256,
    b.val = 128 * (b.val / 128 % 2) + 64 * (b.val / 64 % 2) + 32 * (b.val / 32 % 2) +
      16 * (b.val / 16 % 2) + 8 * (b.val / 8 % 2) + 4 * (b.val / 4 % 2) + 2 * (b.val / 2 % 2) +
      b.val % 2 := by
  decide!

theorem bits_sum (b : Nat) (h : b < 256) :
    ∃ t7 t6 t5 t4 t3 t2 t1 t0 : Nat,
      b / 128 % 2 = t7 ∧ b / 64 % 2 = t6 ∧ b / 32 % 2 = t5 ∧ b / 16 % 2 = t4 ∧
      b / 8 % 2 = t3 ∧ b / 4 % 2 = t2 ∧ b / 2 % 2 = t1 ∧ b % 2 = t0 ∧
      t7 ≤ 1 ∧ t6 ≤ 1 ∧ t5 ≤ 1 ∧ t4 ≤ 1 ∧ t3 ≤ 1 ∧ t2 ≤ 1 ∧ t1 ≤ 1 ∧ t0 ≤ 1 ∧
      b = 128 * t7 + 64 * t6 + 32 * t5 + 16 * t4 + 8 * t3 + 4 * t2 + 2 * t1 + t0 := by
  have m : ∀ x : Nat, x % 2 ≤ 1 := fun x => by omega
  exact ⟨_, _, _, _, _, _, _, _, rfl, rfl, rfl, rfl, rfl, rfl, rfl, rfl,
    m _, m _, m _, m _, m _, m _, m _, m _, bits_sum_fin ⟨b, h⟩⟩

/-- The four 6-bit groups of three bytes, read from their bits, are the four
sextets that `Encode` shifts out of `val`; `z` is 0 where a byte is missing. -/
theorem sextets_of_bits (b0 b1 b2 : Nat) (h0 : b0 < 256) (h1 : b1 < 256) (h2 : b2 < 256) :
    2 * (2 * (2 * (2 * (2 * (2 * 0 + b0 / 128 % 2) + b0 / 64 % 2) + b0 / 32 % 2) + b0 / 16 % 2) +
        b0 / 8 % 2) + b0 / 4 % 2 = (b0 * 65536 + b1 * 256 + b2) / 2 ^ 18 % 64 ∧
    2 * (2 * (2 * (2 * (2 * (2 * 0 + b0 / 2 % 2) + b0 % 2) + b1 / 128 % 2) + b1 / 64 % 2) +
        b1 / 32 % 2) + b1 / 16 % 2 = (b0 * 65536 + b1 * 256 + b2) / 2 ^ 12 % 64 ∧
    2 * (2 * (2 * (2 * (2 * (2 * 0 + b1 / 8 % 2) + b1 / 4 % 2) + b1 / 2 % 2) + b1 % 2) +
        b2 / 128 % 2) + b2 / 64 % 2 = (b0 * 65536 + b1 * 256 + b2) / 2 ^ 6 % 64 ∧
    2 * (2 * (2 * (2 * (2 * (2 * 0 + b2 / 32 % 2) + b2 / 16 % 2) + b2 / 8 % 2) + b2 / 4 % 2) +
        b2 / 2 % 2) + b2 % 2 = (b0 * 65536 + b1 * 256 + b2) % 64 := by
  obtain ⟨x7, x6, x5, x4, x3, x2, x1, x0, e7, e6, e5, e4, e3, e2, e1, e0,
    _, _, _, _, _, _, _, _, ex⟩ := bits_sum b0 h0
  obtain ⟨y7, y6, y5, y4, y3, y2, y1, y0, f7, f6, f5, f4, f3, f2, f1, f0,
    _, _, _, _, _, _, _, _, ey⟩ := bits_sum b1 h1
  obtain ⟨z7, z6, z5, z4, z3, z2, z1, z0, g7, g6, g5, g4, g3, g2, g1, g0,
    _, _, _, _, _, _, _, _, ez⟩ := bits_sum b2 h2
  rw [e7, e6, e5, e4, e3, e2, e1, e0, f7, f6, f5, f4, f3, f2, f1, f0,
    g7, g6, g5, g4, g3, g2, g1, g0]
  clear e7 e6 e5 e4 e3 e2 e1 e0 f7 f6 f5 f4 f3 f2 f1 f0 g7 g6 g5 g4 g3 g2 g1 g0
  subst ex ey ez
  refine ⟨?_, ?_, ?_, ?_⟩ <;> omega

theorem rfc4648_group (b0 b1 b2 : Byte) (rest : List Byte) :
    rfc4648.sixBitGroups ((b0 :: b1 :: b2 :: rest).flatMap rfc4648.bitsOf) =
      [b0.val / 128 % 2, b0.val / 64 % 2, b0.val / 32 % 2, b0.val / 16 % 2, b0.val / 8 % 2,
        b0.val / 4 % 2] ::
      [b0.val / 2 % 2, b0.val % 2, b1.val / 128 % 2, b1.val / 64 % 2, b1.val / 32 % 2,
        b1.val / 16 % 2] ::
      [b1.val / 8 % 2, b1.val / 4 % 2, b1.val / 2 % 2, b1.val % 2, b2.val / 128 % 2,
        b2.val / 64 % 2] ::
      [b2.val / 32 % 2, b2.val / 16 % 2, b2.val / 8 % 2, b2.val / 4 % 2, b2.val / 2 % 2,
        b2.val % 2] :: rfc4648.sixBitGroups (rest.flatMap rfc4648.bitsOf) := by
  rw [List.flatMap_cons, List.flatMap_cons, List.flatMap_cons]
  rfl

set_option maxRecDepth 2000 in
theorem Encode_eq_rfc4648 (bs : List Byte) :
    Encode URLEncoding bs = rfc4648.base64urlEncode bs := by
  induction bs using Encode.induct URLEncoding with
  | case1 b0 b1 b2 rest ih =>
    have hl : (b0 :: b1 :: b2 :: rest).length % 3 = rest.length % 3 := by
      simp only [List.length_cons]; omega
    obtain ⟨s0, s1, s2, s3⟩ := sextets_of_bits b0.val b1.val b2.val b0.isLt b1.isLt b2.isLt
    unfold rfc4648.base64urlEncode at ih ⊢
    rw [hl, rfc4648_group]
    simp only [Encode, ih, List.map_cons, List.cons_append, rfc4648.valueOf, List.foldl_cons,
      List.foldl_nil, group_val _ _ _ b1.isLt b2.isLt, Nat.shiftRight_eq_div_pow]
    rw [alphabet_sextet _ _ s0, alphabet_sextet _ _ s1, alphabet_sextet _ _ s2,
      alphabet_sextet _ _ s3]
  | case2 b0 b1 =>
    obtain ⟨s0, s1, s2, _⟩ := sextets_of_bits b0.val b1.val 0 b0.isLt b1.isLt (by omega)
    have hv : b0.val <<< 16 ||| b1.val <<< 8 = b0.val * 65536 + b1.val * 256 + 0 := by
      rw [group2_val _ _ b1.isLt]; omega
    have hE : Encode URLEncoding [b0, b1] =
        [encodeAt URLEncoding ((b0.val <<< 16 ||| b1.val <<< 8) >>> 18 &&& 0x3F),
         encodeAt URLEncoding ((b0.val <<< 16 ||| b1.val <<< 8) >>> 12 &&& 0x3F),
         encodeAt URLEncoding ((b0.val <<< 16 ||| b1.val <<< 8) >>> 6 &&& 0x3F), 61] := rfl
    have hR : rfc4648.base64urlEncode [b0, b1] =
        [rfc4648.alphabet (rfc4648.valueOf [b0.val / 128 % 2, b0.val / 64 % 2, b0.val / 32 % 2,
            b0.val / 16 % 2, b0.val / 8 % 2, b0.val / 4 % 2]),
         rfc4648.alphabet (rfc4648.valueOf [b0.val / 2 % 2, b0.val % 2, b1.val / 128 % 2,
            b1.val / 64 % 2, b1.val / 32 % 2, b1.val / 16 % 2]),
         rfc4648.alphabet (rfc4648.valueOf [b1.val / 8 % 2, b1.val / 4 % 2, b1.val / 2 % 2,
            b1.val % 2, 0 / 128 % 2, 0 / 64 % 2]), 61] := rfl
    rw [hE, hR, hv]
    simp only [Nat.shiftRight_eq_div_pow]
    rw [← alphabet_sextet _ _ s0, ← alphabet_sextet _ _ s1, ← alphabet_sextet _ _ s2]
    rfl
  | case3 b0 =>
    obtain ⟨s0, s1, _, _⟩ := sextets_of_bits b0.val 0 0 b0.isLt (by omega) (by omega)
    have hv : b0.val <<< 16 = b0.val * 65536 + 0 * 256 + 0 := by
      rw [Nat.shiftLeft_eq]; omega
    have hE : Encode URLEncoding [b0] =
        [encodeAt URLEncoding ((b0.val <<< 16) >>> 18 &&& 0x3F),
         encodeAt URLEncoding ((b0.val <<< 16) >>> 12 &&& 0x3F), 61, 61] := rfl
    have hR : rfc4648.base64urlEncode [b0] =
        [rfc4648.alphabet (rfc4648.valueOf [b0.val / 128 % 2, b0.val / 64 % 2, b0.val / 32 % 2,
            b0.val / 16 % 2, b0.val / 8 % 2, b0.val / 4 % 2]),
         rfc4648.alphabet (rfc4648.valueOf [b0.val / 2 % 2, b0.val % 2, 0 / 128 % 2, 0 / 64 % 2,
            0 / 32 % 2, 0 / 16 % 2]),
         61, 61] := rfl
    rw [hE, hR, hv]
    simp only [Nat.shiftRight_eq_div_pow]
    rw [← alphabet_sextet _ _ s0, ← alphabet_sextet _ _ s1]
    rfl
  | case4 => rfl

/-! ## What the decoder accepts -/

theorem withoutNewlines_cons_keep (c : Byte) (tl : List Byte) (h1 : c ≠ 10) (h2 : c ≠ 13) :
    withoutNewlines (c :: tl) = c :: withoutNewlines tl := by
  simp [withoutNewlines, List.filter_cons, h1, h2]

theorem withoutNewlines_cons_skip (c : Byte) (tl : List Byte) (h : c = 10 ∨ c = 13) :
    withoutNewlines (c :: tl) = withoutNewlines tl := by
  have : ¬ (c ≠ 10 ∧ c ≠ 13) := by
    rcases h with h | h <;> simp [h]
  simp [withoutNewlines, List.filter_cons, this]

theorem mem_withoutNewlines (c : Byte) (t : List Byte) (h : c ∈ t) (h10 : c ≠ 10) (h13 : c ≠ 13) :
    c ∈ withoutNewlines t := by
  simp [withoutNewlines, List.mem_filter, h, h10, h13]

theorem skipNewlines_spec (l : List Byte) : ∀ si,
    (skipNewlines l si).1.length ≤ l.length ∧
    withoutNewlines (skipNewlines l si).1 = withoutNewlines l ∧
    (∀ c r, (skipNewlines l si).1 = c :: r → c ≠ 10 ∧ c ≠ 13) := by
  induction l with
  | nil => intro si; simp [skipNewlines]
  | cons c tl ih =>
    intro si
    by_cases h : c = 10 ∨ c = 13
    · obtain ⟨a, b, d⟩ := ih (si + 1)
      have e : skipNewlines (c :: tl) si = skipNewlines tl (si + 1) := by
        simp only [skipNewlines, h, if_true]
      rw [e]
      exact ⟨by simp only [List.length_cons]; omega,
        by rw [b, withoutNewlines_cons_skip c tl h], d⟩
    · have e : skipNewlines (c :: tl) si = (c :: tl, si) := by
        simp only [skipNewlines, h, if_false]
      rw [e]
      refine ⟨le_refl _, rfl, ?_⟩
      intro c' r e'
      simp only [List.cons.injEq] at e'
      rw [← e'.1]
      exact ⟨fun x => h (Or.inl x), fun x => h (Or.inr x)⟩

theorem quantumLoop_nil (si j : Nat) (dbuf : List Nat) :
    quantumLoop URLEncoding [] si j dbuf =
      if j = 0 then .ret si [] none
      else .ret si [] (some (.CorruptInputError ((si : Int) - j))) := by
  have hp : URLEncoding.padChar = some 61 := rfl
  simp [quantumLoop, hp]

theorem quantumLoop_alpha (c : Byte) (tl : List Byte) (si j : Nat) (dbuf : List Nat)
    (h : c ∈ encodeURL) :
    quantumLoop URLEncoding (c :: tl) si j dbuf =
      if j + 1 < 4 then
        quantumLoop URLEncoding tl (si + 1) (j + 1) (dbuf.set j (decodeMap URLEncoding c))
      else .brk (si + 1) tl (dbuf.set j (decodeMap URLEncoding c)) 4 none := by
  have h1 := (decodeMap_ne_iff c).2 h
  simp only [quantumLoop]
  rw [if_pos h1]

theorem quantumLoop_newline (c : Byte) (tl : List Byte) (si j : Nat) (dbuf : List Nat)
    (h : c = 10 ∨ c = 13) :
    quantumLoop URLEncoding (c :: tl) si j dbuf = quantumLoop URLEncoding tl (si + 1) j dbuf := by
  have h1 : ¬ decodeMap URLEncoding c ≠ 0xff := by
    rcases h with h | h <;> subst h <;> decide
  simp only [quantumLoop]
  rw [if_neg h1, if_pos h]

theorem quantumLoop_illegal (c : Byte) (tl : List Byte) (si j : Nat) (dbuf : List Nat)
    (h : c ∉ encodeURL) (h10 : c ≠ 10) (h13 : c ≠ 13) (h61 : c ≠ 61) :
    quantumLoop URLEncoding (c :: tl) si j dbuf =
      .ret (si + 1) tl (some (.CorruptInputError (((si + 1 : Nat) : Int) - 1))) := by
  have h1 : ¬ decodeMap URLEncoding c ≠ 0xff := fun x => h ((decodeMap_ne_iff c).1 x)
  have h2 : ¬ (c = 10 ∨ c = 13) := by simp [h10, h13]
  have h3 : some c ≠ URLEncoding.padChar := by
    have hp : URLEncoding.padChar = some 61 := rfl
    simp [hp, h61]
  simp only [quantumLoop]
  rw [if_neg h1, if_neg h2, if_pos h3]

theorem quantumLoop_pad (tl : List Byte) (si j : Nat) (dbuf : List Nat) :
    quantumLoop URLEncoding (61 :: tl) si j dbuf =
      match j with
      | 0 => .ret (si + 1) tl (some (.CorruptInputError (((si + 1 : Nat) : Int) - 1)))
      | 1 => .ret (si + 1) tl (some (.CorruptInputError (((si + 1 : Nat) : Int) - 1)))
      | 2 =>
        match skipNewlines tl (si + 1) with
        | ([], si2) => .ret si2 [] (some (.CorruptInputError si2))
        | (c2 :: rest2, si2) =>
          if c2 ≠ 61 then
            .ret si2 (c2 :: rest2) (some (.CorruptInputError ((si2 : Int) - 1)))
          else
            .brk (skipNewlines rest2 (si2 + 1)).2 (skipNewlines rest2 (si2 + 1)).1 dbuf j
              (if (skipNewlines rest2 (si2 + 1)).1 ≠ [] then
                some (.CorruptInputError (skipNewlines rest2 (si2 + 1)).2) else none)
      | _ =>
        .brk (skipNewlines tl (si + 1)).2 (skipNewlines tl (si + 1)).1 dbuf j
          (if (skipNewlines tl (si + 1)).1 ≠ [] then
            some (.CorruptInputError (skipNewlines tl (si + 1)).2) else none) := by
  have h1 : ¬ decodeMap URLEncoding 61 ≠ 0xff := by decide
  have h2 : ¬ ((61 : Byte) = 10 ∨ (61 : Byte) = 13) := by decide
  have h3 : ¬ (some (61 : Byte) ≠ URLEncoding.padChar) := by decide
  simp only [quantumLoop]
  rw [if_neg h1, if_neg h2, if_neg h3]
  have hp : URLEncoding.padChar = some 61 := rfl
  simp only [hp]
  rcases j with _ | _ | _ | j
  · rfl
  · rfl
  · simp only []
    split <;> simp_all
  · rfl

theorem quantumLoop_exit (src : List Byte) : ∀ (si j : Nat) (dbuf : List Nat), j < 4 →
    (∀ nsi rest err, quantumLoop URLEncoding src si j dbuf = .ret nsi rest err →
       rest.length ≤ src.length - 1 ∧
       ((∃ off, err = some (.CorruptInputError off)) ∨
        (err = none ∧ j = 0 ∧ rest = [] ∧ withoutNewlines src = []))) ∧
    (∀ nsi rest d dlen err, quantumLoop URLEncoding src si j dbuf = .brk nsi rest d dlen err →
       rest.length ≤ src.length - 1 ∧
       ((∃ off, err = some (.CorruptInputError off)) ∨
        (err = none ∧
          ((∃ cs, withoutNewlines src = cs ++ withoutNewlines rest ∧ j + cs.length = 4 ∧
              ∀ c ∈ cs, c ∈ encodeURL) ∨
           (rest = [] ∧ ∃ cs pad, withoutNewlines src = cs ++ pad ∧ (∀ c ∈ cs, c ∈ encodeURL) ∧
              (pad = [61] ∨ pad = [61, 61]) ∧ j + cs.length + pad.length = 4))))) := by
  induction src with
  | nil =>
    intro si j dbuf _
    rw [quantumLoop_nil]
    constructor
    · intro nsi rest err h
      split at h
      · rename_i h0
        simp only [LoopExit.ret.injEq] at h
        exact ⟨by simp [← h.2.1], Or.inr ⟨h.2.2.symm, h0, h.2.1.symm, rfl⟩⟩
      · simp only [LoopExit.ret.injEq] at h
        exact ⟨by simp [← h.2.1], Or.inl ⟨_, h.2.2.symm⟩⟩
    · intro nsi rest d dlen err h
      split at h <;> simp at h
  | cons c tl ih =>
    intro si j dbuf hj
    by_cases ha : c ∈ encodeURL
    · obtain ⟨n10, n13, _⟩ := encodeURL_not_special c ha
      rw [quantumLoop_alpha _ _ _ _ _ ha, withoutNewlines_cons_keep c tl n10 n13]
      by_cases hj4 : j + 1 < 4
      · rw [if_pos hj4]
        obtain ⟨ihr, ihb⟩ := ih (si + 1) (j + 1) (dbuf.set j (decodeMap URLEncoding c)) hj4
        constructor
        · intro nsi rest err h
          obtain ⟨hl, hc⟩ := ihr nsi rest err h
          refine ⟨by simp only [List.length_cons]; omega, ?_⟩
          rcases hc with hc | ⟨_, h0, _⟩
          · exact Or.inl hc
          · omega
        · intro nsi rest d dlen err h
          obtain ⟨hl, hc⟩ := ihb nsi rest d dlen err h
          refine ⟨by simp only [List.length_cons]; omega, ?_⟩
          rcases hc with hc | ⟨he, hc⟩
          · exact Or.inl hc
          · refine Or.inr ⟨he, ?_⟩
            rcases hc with ⟨cs, e, hlen, hall⟩ | ⟨hr, cs, pad, e, hall, hp, hlen⟩
            · refine Or.inl ⟨c :: cs, by rw [e]; rfl, by simp only [List.length_cons]; omega, ?_⟩
              intro x hx
              rcases List.mem_cons.1 hx with hx | hx
              · rw [hx]; exact ha
              · exact hall x hx
            · refine Or.inr ⟨hr, c :: cs, pad, by rw [e]; rfl, ?_, hp,
                by simp only [List.length_cons]; omega⟩
              intro x hx
              rcases List.mem_cons.1 hx with hx | hx
              · rw [hx]; exact ha
              · exact hall x hx
      · rw [if_neg hj4]
        constructor
        · intro nsi rest err h
          simp at h
        · intro nsi rest d dlen err h
          simp only [LoopExit.brk.injEq] at h
          obtain ⟨_, hr, _, _, he⟩ := h
          subst hr
          refine ⟨by simp, Or.inr ⟨he.symm, Or.inl ⟨[c], rfl, by simp only [List.length_singleton]; omega, ?_⟩⟩⟩
          intro x hx
          rw [List.mem_singleton.1 hx]
          exact ha
    · by_cases hn : c = 10 ∨ c = 13
      · rw [quantumLoop_newline _ _ _ _ _ hn, withoutNewlines_cons_skip c tl hn]
        obtain ⟨ihr, ihb⟩ := ih (si + 1) j dbuf hj
        constructor
        · intro nsi rest err h
          obtain ⟨hl, hc⟩ := ihr nsi rest err h
          exact ⟨by simp only [List.length_cons]; omega, hc⟩
        · intro nsi rest d dlen err h
          obtain ⟨hl, hc⟩ := ihb nsi rest d dlen err h
          exact ⟨by simp only [List.length_cons]; omega, hc⟩
      · have n10 : c ≠ 10 := fun x => hn (Or.inl x)
        have n13 : c ≠ 13 := fun x => hn (Or.inr x)
        by_cases hp : c = 61
        · subst hp
          rw [quantumLoop_pad, withoutNewlines_cons_keep 61 tl n10 n13]
          obtain ⟨sl, ss, sh⟩ := skipNewlines_spec tl (si + 1)
          rcases j with _ | _ | _ | j
          · constructor
            · intro nsi rest err h
              simp only [LoopExit.ret.injEq] at h
              exact ⟨by simp [← h.2.1], Or.inl ⟨_, h.2.2.symm⟩⟩
            · intro nsi rest d dlen err h
              simp at h
          · constructor
            · intro nsi rest err h
              simp only [LoopExit.ret.injEq] at h
              exact ⟨by simp [← h.2.1], Or.inl ⟨_, h.2.2.symm⟩⟩
            · intro nsi rest d dlen err h
              simp at h
          · rcases hsk : skipNewlines tl (si + 1) with ⟨l2, si2⟩
            rw [hsk] at sl ss sh
            simp only at sl ss sh
            cases l2 with
            | nil =>
              constructor
              · intro nsi rest err h
                simp only [LoopExit.ret.injEq] at h
                exact ⟨by simp [← h.2.1], Or.inl ⟨_, h.2.2.symm⟩⟩
              · intro nsi rest d dlen err h
                simp at h
            | cons c2 rest2 =>
              simp only
              by_cases h2 : c2 ≠ 61
              · rw [if_pos h2]
                constructor
                · intro nsi rest err h
                  simp only [LoopExit.ret.injEq] at h
                  exact ⟨by rw [← h.2.1]; simpa using sl, Or.inl ⟨_, h.2.2.symm⟩⟩
                · intro nsi rest d dlen err h
                  simp at h
              · rw [if_neg h2]
                have h2' : c2 = 61 := by simpa using h2
                subst h2'
                obtain ⟨tl2, ts, _⟩ := skipNewlines_spec rest2 (si2 + 1)
                constructor
                · intro nsi rest err h
                  simp at h
                · intro nsi rest d dlen err h
                  simp only [LoopExit.brk.injEq] at h
                  obtain ⟨_, hr, _, _, he⟩ := h
                  refine ⟨?_, ?_⟩
                  · rw [← hr]
                    simp only [List.length_cons] at sl ⊢
                    omega
                  · by_cases hne : (skipNewlines rest2 (si2 + 1)).1 ≠ []
                    · rw [if_pos hne] at he
                      exact Or.inl ⟨_, he.symm⟩
                    · rw [if_neg hne] at he
                      have hnil : (skipNewlines rest2 (si2 + 1)).1 = [] := by simpa using hne
                      refine Or.inr ⟨he.symm, Or.inr ⟨by rw [← hr, hnil], [], [61, 61], ?_,
                        by simp, Or.inr rfl, by simp⟩⟩
                      rw [← ss, withoutNewlines_cons_keep 61 rest2 (by decide) (by decide), ← ts,
                        hnil]
                      rfl
          · have hj3 : j = 0 := by omega
            subst hj3
            constructor
            · intro nsi rest err h
              simp at h
            · intro nsi rest d dlen err h
              simp only [LoopExit.brk.injEq] at h
              obtain ⟨_, hr, _, _, he⟩ := h
              refine ⟨?_, ?_⟩
              · rw [← hr]
                simp only [List.length_cons]
                omega
              · by_cases hne : (skipNewlines tl (si + 1)).1 ≠ []
                · rw [if_pos hne] at he
                  exact Or.inl ⟨_, he.symm⟩
                · rw [if_neg hne] at he
                  have hnil : (skipNewlines tl (si + 1)).1 = [] := by simpa using hne
                  refine Or.inr ⟨he.symm, Or.inr ⟨by rw [← hr, hnil], [], [61], ?_,
                    by simp, Or.inl rfl, by simp⟩⟩
                  rw [← ss, hnil]
                  rfl
        · rw [quantumLoop_illegal _ _ _ _ _ ha n10 n13 hp]
          constructor
          · intro nsi rest err h
            simp only [LoopExit.ret.injEq] at h
            exact ⟨by simp [← h.2.1], Or.inl ⟨_, h.2.2.symm⟩⟩
          · intro nsi rest d dlen err h
            simp at h

theorem decodeQuantum_exit (src : List Byte) (si : Nat) :
    (decodeQuantum URLEncoding src si).rest.length ≤ src.length - 1 ∧
    ((∃ off, (decodeQuantum URLEncoding src si).err = some (.CorruptInputError off)) ∨
     ((decodeQuantum URLEncoding src si).err = none ∧
       (((decodeQuantum URLEncoding src si).rest = [] ∧ withoutNewlines src = []) ∨
        (∃ cs, withoutNewlines src = cs ++ withoutNewlines (decodeQuantum URLEncoding src si).rest ∧
            cs.length = 4 ∧ ∀ c ∈ cs, c ∈ encodeURL) ∨
        ((decodeQuantum URLEncoding src si).rest = [] ∧
          ∃ cs pad, withoutNewlines src = cs ++ pad ∧ (∀ c ∈ cs, c ∈ encodeURL) ∧
            (pad = [61] ∨ pad = [61, 61]) ∧ cs.length + pad.length = 4)))) := by
  obtain ⟨hr, hb⟩ := quantumLoop_exit src si 0 [0, 0, 0, 0] (by omega)
  have hs : URLEncoding.strict = false := rfl
  unfold decodeQuantum
  cases hq : quantumLoop URLEncoding src si 0 [0, 0, 0, 0] with
  | ret nsi rest err =>
    obtain ⟨hl, hc⟩ := hr nsi rest err hq
    refine ⟨hl, ?_⟩
    rcases hc with hc | ⟨he, _, hrest, hw⟩
    · exact Or.inl hc
    · exact Or.inr ⟨he, Or.inl ⟨hrest, hw⟩⟩
  | brk nsi rest d dlen err =>
    obtain ⟨hl, hc⟩ := hb nsi rest d dlen err hq
    have key : rest.length ≤ src.length - 1 ∧
        ((∃ off, err = some (.CorruptInputError off)) ∨
         (err = none ∧
           ((rest = [] ∧ withoutNewlines src = []) ∨
            (∃ cs, withoutNewlines src = cs ++ withoutNewlines rest ∧
                cs.length = 4 ∧ ∀ c ∈ cs, c ∈ encodeURL) ∨
            (rest = [] ∧
              ∃ cs pad, withoutNewlines src = cs ++ pad ∧ (∀ c ∈ cs, c ∈ encodeURL) ∧
                (pad = [61] ∨ pad = [61, 61]) ∧ cs.length + pad.length = 4)))) := by
      refine ⟨hl, ?_⟩
      rcases hc with hc | ⟨he, hc⟩
      · exact Or.inl hc
      · refine Or.inr ⟨he, ?_⟩
        rcases hc with ⟨cs, e, hlen, hall⟩ | ⟨hrest, cs, pad, e, hall, hp, hlen⟩
        · exact Or.inr (Or.inl ⟨cs, e, by omega, hall⟩)
        · exact Or.inr (Or.inr ⟨hrest, cs, pad, e, hall, hp, by omega⟩)
    simp only [hs, Bool.false_eq_true, false_and, if_false]
    split <;> exact key

theorem decodeLoop_exit : ∀ (fuel : Nat) (src : List Byte) (si : Nat) (dst : List Byte),
    src.length ≤ fuel →
    ∃ d e, decodeLoop URLEncoding fuel src si dst = some (d, e) ∧
      (∀ x, e = some x → ∃ off, x = .CorruptInputError off) ∧
      (e = none → ∃ body pad, withoutNewlines src = body ++ pad ∧ (∀ c ∈ body, c ∈ encodeURL) ∧
        (pad = [] ∨ pad = [61] ∨ pad = [61, 61]) ∧ (withoutNewlines src).length % 4 = 0) := by
  intro fuel
  induction fuel with
  | zero =>
    intro src si dst hf
    have : src = [] := by simpa using hf
    subst this
    exact ⟨dst, none, by simp [decodeLoop], by simp, fun _ => ⟨[], [], rfl, by simp, Or.inl rfl, rfl⟩⟩
  | succ fuel ih =>
    intro src si dst hf
    cases src with
    | nil =>
      exact ⟨dst, none, by simp [decodeLoop], by simp,
        fun _ => ⟨[], [], rfl, by simp, Or.inl rfl, rfl⟩⟩
    | cons c tl =>
      obtain ⟨hl, hc⟩ := decodeQuantum_exit (c :: tl) si
      simp only [decodeLoop]
      rcases hc with ⟨off, he⟩ | ⟨he, hc⟩
      · rw [he]
        exact ⟨_, _, rfl, fun x hx => ⟨off, by simpa using hx.symm⟩, by simp⟩
      · rw [he]
        simp only
        have hf2 : (decodeQuantum URLEncoding (c :: tl) si).rest.length ≤ fuel := by
          simp only [List.length_cons] at hl hf
          omega
        obtain ⟨d, e, hd, hx, hacc⟩ := ih (decodeQuantum URLEncoding (c :: tl) si).rest
          (decodeQuantum URLEncoding (c :: tl) si).nsi
          (dst ++ (decodeQuantum URLEncoding (c :: tl) si).dst) hf2
        refine ⟨d, e, hd, hx, fun hnone => ?_⟩
        obtain ⟨body, pad, eb, hall, hp, hlen⟩ := hacc hnone
        rcases hc with ⟨hrest, hw⟩ | ⟨cs, ecs, hcs, hcsall⟩ | ⟨hrest, cs, pad2, ecs, hcsall, hp2, hlen2⟩
        · rw [hw]
          exact ⟨[], [], rfl, by simp, Or.inl rfl, rfl⟩
        · rw [ecs, eb]
          refine ⟨cs ++ body, pad, by simp, ?_, hp, ?_⟩
          · intro x hx'
            rcases List.mem_append.1 hx' with h | h
            · exact hcsall x h
            · exact hall x h
          · rw [eb] at hlen
            simp only [List.length_append] at hlen ⊢
            omega
        · rw [ecs]
          refine ⟨cs, pad2, rfl, hcsall, ?_, ?_⟩
          · rcases hp2 with h | h
            · exact Or.inr (Or.inl h)
            · exact Or.inr (Or.inr h)
          · simp only [List.length_append]
            omega

theorem DecodeString_exit (t : List Byte) :
    ∃ d e, DecodeString URLEncoding t = some (d, e) ∧
      (∀ x, e = some x → ∃ off, x = .CorruptInputError off) ∧
      (e = none → ∃ body pad, withoutNewlines t = body ++ pad ∧ (∀ c ∈ body, c ∈ encodeURL) ∧
        (pad = [] ∨ pad = [61] ∨ pad = [61, 61]) ∧ (withoutNewlines t).length % 4 = 0) :=
  decodeLoop_exit t.length t 0 [] (le_refl _)

/-! ## Splitting at the delimiter -/

theorem Index_delim_none (s : List Byte) (h : (58 : Byte) ∉ s) : Index s [58] = none := by
  induction s with
  | nil => simp [Index]
  | cons c s ih =>
    simp only [List.mem_cons, not_or] at h
    have hc : ((58 : Byte) == c) = false := by simpa using h.1
    simp [Index, List.isPrefixOf, hc, ih h.2]

theorem Index_delim_first (p0 p1 : List Byte) (h : (58 : Byte) ∉ p0) :
    Index (p0 ++ 58 :: p1) [58] = some p0.length := by
  induction p0 with
  | nil => simp [Index, List.isPrefixOf]
  | cons c s ih =>
    simp only [List.mem_cons, not_or] at h
    have hc : ((58 : Byte) == c) = false := by simpa using h.1
    simp [Index, List.isPrefixOf, hc, ih h.2]

theorem exists_first_delim (c : Byte) (d : List Byte) (h : c ∈ d) :
    ∃ p0 p1, d = p0 ++ c :: p1 ∧ c ∉ p0 := by
  induction d with
  | nil => simp at h
  | cons x d ih =>
    by_cases hx : c = x
    · exact ⟨[], d, by simp [hx], by simp⟩
    · have hd : c ∈ d := by
        rcases List.mem_cons.1 h with h | h
        · exact absurd h hx
        · exact h
      obtain ⟨p0, p1, e, hn⟩ := ih hd
      exact ⟨x :: p0, p1, by simp [e], by simp [hx, hn]⟩

theorem first_delim_unique (c : Byte) (p0 p1 q0 q1 : List Byte)
    (hp : c ∉ p0) (hq : c ∉ q0) (e : p0 ++ c :: p1 = q0 ++ c :: q1) : p0 = q0 ∧ p1 = q1 := by
  induction p0 generalizing q0 with
  | nil =>
    cases q0 with
    | nil => simpa using e
    | cons y q0 =>
      simp only [List.nil_append, List.cons_append, List.cons.injEq] at e
      simp [e.1] at hq
  | cons x p0 ih =>
    cases q0 with
    | nil =>
      simp only [List.nil_append, List.cons_append, List.cons.injEq] at e
      simp [e.1] at hp
    | cons y q0 =>
      simp only [List.cons_append, List.cons.injEq] at e
      simp only [List.mem_cons, not_or] at hp hq
      obtain ⟨h1, h2⟩ := ih q0 hp.2 hq.2 e.2
      exact ⟨by rw [e.1, h1], h2⟩

theorem SplitN_no_delim (d : List Byte) (h : (58 : Byte) ∉ d) : SplitN d idDelimiter 2 = [d] := by
  cases d with
  | nil => rfl
  | cons c s =>
    have hi := Index_delim_none (c :: s) h
    simp [SplitN, genSplit, genSplitLoop, idDelimiter, hi]

theorem SplitN_first_delim (p0 p1 : List Byte) (h : (58 : Byte) ∉ p0) :
    SplitN (p0 ++ 58 :: p1) idDelimiter 2 = [p0, p1] := by
  have hi := Index_delim_first p0 p1 h
  have hl : ¬ (2 > (p0 ++ 58 :: p1).length + 1) := by simp; omega
  simp only [SplitN, genSplit, idDelimiter, hl, if_false]
  simp [genSplitLoop, hi]

theorem SplitN_two_parts (d a b : List Byte) (h : SplitN d idDelimiter 2 = [a, b]) :
    (58 : Byte) ∉ a ∧ a ++ 58 :: b = d := by
  by_cases hm : (58 : Byte) ∈ d
  · obtain ⟨p0, p1, e, hn⟩ := exists_first_delim 58 d hm
    subst e
    rw [SplitN_first_delim p0 p1 hn] at h
    simp only [List.cons.injEq, and_true] at h
    rw [← h.1, ← h.2]
    exact ⟨hn, rfl⟩
  · rw [SplitN_no_delim d hm] at h
    simp at h

/-! ## Bytes that valid UTF-8 never contains -/

theorem ValidString_cons (si : Byte) (rest : List Byte) :
    ValidString (si :: rest) =
    if si.val < RuneSelf then ValidString rest
    else
      if first si = xx then false
      else
        if 1 + rest.length < first si &&& 7 then false
        else
          match rest with
          | [] => false
          | c1 :: rest1 =>
            if c1.val < (acceptRanges.getD (first si >>> 4) ⟨0, 0⟩).lo ∨
                (acceptRanges.getD (first si >>> 4) ⟨0, 0⟩).hi < c1.val then false
            else if first si &&& 7 = 2 then ValidString rest1
            else
              match rest1 with
              | [] => false
              | c2 :: rest2 =>
                if c2.val < locb ∨ hicb < c2.val then false
                else if first si &&& 7 = 3 then ValidString rest2
                else
                  match rest2 with
                  | [] => false
                  | c3 :: rest3 =>
                    if c3.val < locb ∨ hicb < c3.val then false
                    else ValidString rest3 := by
  rcases rest with _ | ⟨c1, _ | ⟨c2, _ | ⟨c3, rest3⟩⟩⟩ <;> rfl

theorem ascii_ne_ff (c : Byte) (h : c.val < RuneSelf) : c ≠ 255 := by
  intro e; subst e; revert h; decide

theorem starter_ne_ff (c : Byte) (h : ¬ first c = xx) : c ≠ 255 := by
  intro e; subst e; exact h (by decide)

theorem cont_ne_ff (c : Byte) (h : ¬ (c.val < locb ∨ hicb < c.val)) : c ≠ 255 := by
  intro e; subst e; exact h (Or.inr (by decide))

theorem accept_hi_le : ∀ b : Byte, (acceptRanges.getD (first b >>> 4) ⟨0, 0⟩).hi ≤ hicb := by
  decide!

theorem accept_ne_ff (b c : Byte)
    (h : ¬ (c.val < (acceptRanges.getD (first b >>> 4) ⟨0, 0⟩).lo ∨
      (acceptRanges.getD (first b >>> 4) ⟨0, 0⟩).hi < c.val)) : c ≠ 255 := by
  intro e
  subst e
  have := accept_hi_le b
  apply h
  right
  have h2 : hicb < (255 : Byte).val := by decide
  omega

theorem ValidString_no_ff : ∀ (n : Nat) (l : List Byte), l.length ≤ n →
    ValidString l = true → (255 : Byte) ∉ l := by
  intro n
  induction n with
  | zero =>
    intro l hl _
    have : l = [] := by simpa using hl
    simp [this]
  | succ n ih =>
    intro l hl h
    rcases l with _ | ⟨si, rest⟩
    · simp
    rw [ValidString_cons] at h
    simp only [List.length_cons] at hl
    by_cases hlt : si.val < RuneSelf
    · rw [if_pos hlt] at h
      simp only [List.mem_cons, not_or]
      exact ⟨fun e => ascii_ne_ff si hlt e.symm, ih rest (by omega) h⟩
    rw [if_neg hlt] at h
    by_cases hx : first si = xx
    · rw [if_pos hx] at h; simp at h
    rw [if_neg hx] at h
    by_cases hs : 1 + rest.length < first si &&& 7
    · rw [if_pos hs] at h; simp at h
    rw [if_neg hs] at h
    have k0 := starter_ne_ff si hx
    rcases rest with _ | ⟨c1, rest1⟩
    · simp at h
    simp only at h
    by_cases hr : c1.val < (acceptRanges.getD (first si >>> 4) ⟨0, 0⟩).lo ∨
        (acceptRanges.getD (first si >>> 4) ⟨0, 0⟩).hi < c1.val
    · rw [if_pos hr] at h; simp at h
    rw [if_neg hr] at h
    have k1 := accept_ne_ff si c1 hr
    simp only [List.length_cons] at hl
    by_cases h2 : first si &&& 7 = 2
    · rw [if_pos h2] at h
      simp only [List.mem_cons, not_or]
      exact ⟨fun e => k0 e.symm, fun e => k1 e.symm, ih rest1 (by omega) h⟩
    rw [if_neg h2] at h
    rcases rest1 with _ | ⟨c2, rest2⟩
    · simp at h
    simp only at h
    by_cases hc2 : c2.val < locb ∨ hicb < c2.val
    · rw [if_pos hc2] at h; simp at h
    rw [if_neg hc2] at h
    have k2 := cont_ne_ff c2 hc2
    simp only [List.length_cons] at hl
    by_cases h3 : first si &&& 7 = 3
    · rw [if_pos h3] at h
      simp only [List.mem_cons, not_or]
      exact ⟨fun e => k0 e.symm, fun e => k1 e.symm, fun e => k2 e.symm, ih rest2 (by omega) h⟩
    rw [if_neg h3] at h
    rcases rest2 with _ | ⟨c3, rest3⟩
    · simp at h
    simp only at h
    by_cases hc3 : c3.val < locb ∨ hicb < c3.val
    · rw [if_pos hc3] at h; simp at h
    rw [if_neg hc3] at h
    have k3 := cont_ne_ff c3 hc3
    simp only [List.length_cons] at hl
    simp only [List.mem_cons, not_or]
    exact ⟨fun e => k0 e.symm, fun e => k1 e.symm, fun e => k2 e.symm, fun e => k3 e.symm,
      ih rest3 (by omega) h⟩

theorem ValidString_ff_false (l : List Byte) (h : (255 : Byte) ∈ l) : ValidString l = false := by
  cases hv : ValidString l with
  | false => rfl
  | true => exact absurd h (ValidString_no_ff l.length l (le_refl _) hv)

/-! ## `unwrap` after a successful or failed decoding -/

theorem unwrap_no_delim (t d : List Byte) (hd : DecodeString URLEncoding t = some (d, none))
    (h : (58 : Byte) ∉ d) :
    unwrap t = some (.error (.errorString "could not find two parts with given delimiter")) := by
  simp [unwrap, hd, SplitN_no_delim d h]

theorem unwrap_split (t p0 p1 : List Byte)
    (hd : DecodeString URLEncoding t = some (p0 ++ 58 :: p1, none)) (h : (58 : Byte) ∉ p0) :
    unwrap t = if !ValidString p0 || !ValidString p1 then
        some (.error (.errorString "invalid utf8 string found"))
      else some (.ok { StorageId := p0, OpaqueId := p1 }) := by
  simp [unwrap, hd, SplitN_first_delim p0 p1 h]

theorem unwrap_corrupt (t d : List Byte) (e : GoError)
    (hd : DecodeString URLEncoding t = some (d, some e)) : unwrap t = some (.error e) := by
  simp [unwrap, hd]

theorem wrap_decodes (s o : List Byte) :
    DecodeString URLEncoding (wrap s o) = some (s ++ 58 :: o, none) := by
  have h := DecodeString_EncodeToString (s ++ idDelimiter ++ o)
  simpa [wrap, idDelimiter] using h

theorem unwrap_wrap_of_no_delim (s o : List Byte) (hs : ValidString s = true)
    (ho : ValidString o = true) (hd : (58 : Byte) ∉ s) :
    unwrap (wrap s o) = some (.ok { StorageId := s, OpaqueId := o }) := by
  rw [unwrap_split _ s o (wrap_decodes s o) hd]
  simp [hs, ho]

/-- `unwrap` returns for every token: the fuel given to the decoding loop is
always enough. -/
theorem unwrap_returns (t : List Byte) : ∃ r, unwrap t = some r := by
  obtain ⟨d, e, hd, _, _⟩ := DecodeString_exit t
  unfold unwrap
  rw [hd]
  cases e with
  | some x => exact ⟨_, rfl⟩
  | none =>
    simp only
    split
    · split <;> exact ⟨_, rfl⟩
    · exact ⟨_, rfl⟩

/-! ## Valid UTF-8 around the delimiter -/

theorem starter_facts : ∀ c : Byte, ¬ c.val < RuneSelf → ¬ first c = xx →
    (first c &&& 7 = 2 ∨ first c &&& 7 = 3 ∨ first c &&& 7 = 4) ∧
    (58 : Byte).val < (acceptRanges.getD (first c >>> 4) ⟨0, 0⟩).lo := by
  decide!

theorem delim_not_cont : (58 : Byte).val < locb := by decide

theorem delim_ascii : (58 : Byte).val < RuneSelf := by decide

theorem ValidString_delim_cons (b : List Byte) : ValidString (58 :: b) = ValidString b := by
  rw [ValidString_cons, if_pos delim_ascii]

set_option maxHeartbeats 4000000 in
theorem ValidString_append_delim : ∀ (n : Nat) (a b : List Byte), a.length ≤ n →
    ValidString (a ++ 58 :: b) = (ValidString a && ValidString b) := by
  intro n
  induction n with
  | zero =>
    intro a b hl
    have : a = [] := by simpa using hl
    subst this
    rw [List.nil_append, ValidString_delim_cons]
    rfl
  | succ n ih =>
    intro a b hl
    rcases a with _ | ⟨si, rest⟩
    · rw [List.nil_append, ValidString_delim_cons]; rfl
    simp only [List.length_cons] at hl
    rw [List.cons_append, ValidString_cons si (rest ++ 58 :: b), ValidString_cons si rest]
    by_cases hlt : si.val < RuneSelf
    · rw [if_pos hlt, if_pos hlt]
      exact ih rest b (by omega)
    rw [if_neg hlt, if_neg hlt]
    by_cases hx : first si = xx
    · rw [if_pos hx, if_pos hx]; rfl
    rw [if_neg hx, if_neg hx]
    obtain ⟨hsz, hacc⟩ := starter_facts si hlt hx
    have hnc := delim_not_cont
    rcases rest with _ | ⟨c1, _ | ⟨c2, _ | ⟨c3, rest3⟩⟩⟩
    · -- the sequence is cut right after its first byte
      have h1 : (1 + ([] : List Byte).length < first si &&& 7) := by
        simp only [List.length_nil]; omega
      rw [if_pos h1]
      simp only [List.nil_append, Bool.false_and]
      split
      · rfl
      · simp only [hacc, true_or, if_true]
    · have e1 : ValidString ([] : List Byte) = true := rfl
      simp only [List.cons_append, List.nil_append, List.length_cons, List.length_nil]
      rcases hsz with hs | hs | hs <;> rw [hs] <;> split_ifs <;>
        first
        | omega
        | simp_all [ValidString_delim_cons]
    · have e1 : ValidString ([] : List Byte) = true := rfl
      have e2 := ih [c2] b (by simp only [List.length_cons, List.length_nil] at hl ⊢; omega)
      simp only [List.cons_append, List.nil_append, List.length_cons, List.length_nil] at e2 ⊢
      rcases hsz with hs | hs | hs <;> rw [hs] <;> split_ifs <;>
        first
        | omega
        | simp_all [ValidString_delim_cons]
    · simp only [List.length_cons] at hl
      have l1 : rest3.length ≤ n := by omega
      have l2 : (c3 :: rest3).length ≤ n := by simp only [List.length_cons]; omega
      have l3 : (c2 :: c3 :: rest3).length ≤ n := by simp only [List.length_cons]; omega
      have e1 := ih rest3 b l1
      have e2 := ih (c3 :: rest3) b l2
      have e3 := ih (c2 :: c3 :: rest3) b l3
      clear ih hl l1 l2 l3
      simp only [List.cons_append, List.nil_append, List.length_cons, List.length_nil,
        List.length_append] at e2 e3 ⊢
      rcases hsz with hs | hs | hs <;> rw [hs] <;> split_ifs <;>
        first
        | omega
        | simp_all [ValidString_delim_cons]

theorem ValidString_split (a b : List Byte) :
    ValidString (a ++ idDelimiter ++ b) = (ValidString a && ValidString b) := by
  have h := ValidString_append_delim a.length a b (le_refl _)
  simpa [idDelimiter] using h

theorem unwrap_ok_iff (t : List Byte) (r : ResourceId) :
    unwrap t = some (.ok r) ↔
      DecodeString URLEncoding t = some (r.StorageId ++ 58 :: r.OpaqueId, none) ∧
      (58 : Byte) ∉ r.StorageId ∧ ValidString r.StorageId = true ∧
      ValidString r.OpaqueId = true := by
  constructor
  · intro h
    unfold unwrap at h
    split at h
    · simp at h
    · simp at h
    · rename_i d hd
      split at h
      · rename_i a b hs
        split at h
        · simp at h
        · rename_i hv
          simp only [Option.some.injEq, Except.ok.injEq] at h
          subst h
          obtain ⟨hn, e⟩ := SplitN_two_parts d a b hs
          simp only [Bool.or_eq_true, Bool.not_eq_true', not_or, Bool.not_eq_false] at hv
          exact ⟨by rw [hd, e], hn, hv.1, hv.2⟩
      · simp at h
  · rintro ⟨hd, hn, h0, h1⟩
    rw [unwrap_split t _ _ hd hn]
    simp [h0, h1]

/-! ## The values `unwrap` returns and the padding of a token -/

theorem unwrapValues_spec (t : List Byte) :
    ∃ id err, unwrapValues t = some (id, err) ∧
      ((id = none ∧ ∃ e, err = some e ∧ unwrap t = some (.error e)) ∨
       (err = none ∧ ∃ r, id = some r ∧ unwrap t = some (.ok r))) := by
  obtain ⟨d, e, hd, _, _⟩ := DecodeString_exit t
  unfold unwrapValues unwrap
  rw [hd]
  cases e with
  | some x => exact ⟨none, some x, by simp, Or.inl ⟨rfl, x, rfl, rfl⟩⟩
  | none =>
    simp only [ne_eq, not_true_eq_false, if_false]
    by_cases hm : (58 : Byte) ∈ d
    · obtain ⟨p0, p1, e, hn⟩ := exists_first_delim 58 d hm
      subst e
      rw [SplitN_first_delim p0 p1 hn]
      by_cases hv : (!ValidString p0 || !ValidString p1) = true
      · exact ⟨none, some (.errorString "invalid utf8 string found"), by simp [hv],
          Or.inl ⟨rfl, .errorString "invalid utf8 string found", rfl, by simp [hv]⟩⟩
      · exact ⟨some ⟨p0, p1⟩, none, by simp [hv], Or.inr ⟨rfl, ⟨p0, p1⟩, rfl, by simp [hv]⟩⟩
    · rw [SplitN_no_delim d hm]
      exact ⟨none, some (.errorString "could not find two parts with given delimiter"), by simp,
        Or.inl ⟨rfl, .errorString "could not find two parts with given delimiter", rfl, rfl⟩⟩

theorem unwrap_error_kinds (t : List Byte) (e : GoError) (h : unwrap t = some (.error e)) :
    (∃ off, e = .CorruptInputError off) ∨
    e = .errorString "could not find two parts with given delimiter" ∨
    e = .errorString "invalid utf8 string found" := by
  obtain ⟨d, e', hd, hx, _⟩ := DecodeString_exit t
  cases e' with
  | some x =>
    rw [unwrap_corrupt t d x hd] at h
    simp only [Option.some.injEq, Except.error.injEq] at h
    subst h
    exact Or.inl (hx x rfl)
  | none =>
    by_cases hm : (58 : Byte) ∈ d
    · obtain ⟨p0, p1, e2, hn⟩ := exists_first_delim 58 d hm
      subst e2
      rw [unwrap_split t p0 p1 hd hn] at h
      split at h
      · simp only [Option.some.injEq, Except.error.injEq] at h
        exact Or.inr (Or.inr h.symm)
      · simp at h
    · rw [unwrap_no_delim t d hd hm] at h
      simp only [Option.some.injEq, Except.error.injEq] at h
      exact Or.inr (Or.inl h.symm)

theorem Encode_padding (bs : List Byte) :
    ∃ body, (∀ c ∈ body, c ∈ encodeURL) ∧
      ((bs.length % 3 = 0 ∧ Encode URLEncoding bs = body) ∨
       (bs.length % 3 = 2 ∧ Encode URLEncoding bs = body ++ [61]) ∨
       (bs.length % 3 = 1 ∧ Encode URLEncoding bs = body ++ [61, 61])) := by
  induction bs using Encode.induct URLEncoding with
  | case1 b0 b1 b2 rest ih =>
    obtain ⟨body, hb, hc⟩ := ih
    refine ⟨encodeAt URLEncoding ((b0.val <<< 16 ||| b1.val <<< 8 ||| b2.val) >>> 18 &&& 0x3F) ::
      encodeAt URLEncoding ((b0.val <<< 16 ||| b1.val <<< 8 ||| b2.val) >>> 12 &&& 0x3F) ::
      encodeAt URLEncoding ((b0.val <<< 16 ||| b1.val <<< 8 ||| b2.val) >>> 6 &&& 0x3F) ::
      encodeAt URLEncoding ((b0.val <<< 16 ||| b1.val <<< 8 ||| b2.val) &&& 0x3F) :: body, ?_, ?_⟩
    · intro c hc'
      simp only [List.mem_cons] at hc'
      rcases hc' with h | h | h | h | h
      · rw [h]; exact encodeAt_mem ⟨_, and_63_lt _⟩
      · rw [h]; exact encodeAt_mem ⟨_, and_63_lt _⟩
      · rw [h]; exact encodeAt_mem ⟨_, and_63_lt _⟩
      · rw [h]; exact encodeAt_mem ⟨_, and_63_lt _⟩
      · exact hb c h
    · have hl : (b0 :: b1 :: b2 :: rest).length % 3 = rest.length % 3 := by
        simp only [List.length_cons]; omega
      rw [hl]
      rcases hc with ⟨h, e⟩ | ⟨h, e⟩ | ⟨h, e⟩
      · exact Or.inl ⟨h, by simp only [Encode, e]⟩
      · exact Or.inr (Or.inl ⟨h, by simp only [Encode, e]; rfl⟩)
      · exact Or.inr (Or.inr ⟨h, by simp only [Encode, e]; rfl⟩)
  | case2 b0 b1 =>
    refine ⟨[encodeAt URLEncoding ((b0.val <<< 16 ||| b1.val <<< 8) >>> 18 &&& 0x3F),
      encodeAt URLEncoding ((b0.val <<< 16 ||| b1.val <<< 8) >>> 12 &&& 0x3F),
      encodeAt URLEncoding ((b0.val <<< 16 ||| b1.val <<< 8) >>> 6 &&& 0x3F)], ?_,
      Or.inr (Or.inl ⟨rfl, rfl⟩)⟩
    intro c hc
    simp only [List.mem_cons, List.mem_singleton, List.not_mem_nil, or_false] at hc
    rcases hc with h | h | h
    · rw [h]; exact encodeAt_mem ⟨_, and_63_lt _⟩
    · rw [h]; exact encodeAt_mem ⟨_, and_63_lt _⟩
    · rw [h]; exact encodeAt_mem ⟨_, and_63_lt _⟩
  | case3 b0 =>
    refine ⟨[encodeAt URLEncoding ((b0.val <<< 16) >>> 18 &&& 0x3F),
      encodeAt URLEncoding ((b0.val <<< 16) >>> 12 &&& 0x3F)], ?_,
      Or.inr (Or.inr ⟨rfl, rfl⟩)⟩
    intro c hc
    simp only [List.mem_cons, List.mem_singleton, List.not_mem_nil, or_false] at hc
    rcases hc with h | h
    · rw [h]; exact encodeAt_mem ⟨_, and_63_lt _⟩
    · rw [h]; exact encodeAt_mem ⟨_, and_63_lt _⟩
  | case4 => exact ⟨[], by simp, Or.inl ⟨rfl, rfl⟩⟩

/-! ## The text of an accepted token -/

theorem skipNewlines_withoutNewlines (l : List Byte) (k : Nat) :
    skipNewlines (withoutNewlines l) k = (withoutNewlines l, k) := by
  induction l with
  | nil => rfl
  | cons c tl ih =>
    by_cases h : c = 10 ∨ c = 13
    · rw [withoutNewlines_cons_skip c tl h]; exact ih
    · have n10 : c ≠ 10 := fun x => h (Or.inl x)
      have n13 : c ≠ 13 := fun x => h (Or.inr x)
      rw [withoutNewlines_cons_keep c tl n10 n13]
      simp only [skipNewlines, h, if_false]

theorem withoutNewlines_nil : withoutNewlines [] = [] := rfl

/-- Newlines do not change what a quantum decodes: when the loop of
`decodeQuantum` leaves without error, it leaves in the same way, with the same
`dbuf` and `dlen`, on the input without its newlines. -/
theorem quantumLoop_withoutNewlines (src : List Byte) :
    ∀ (si si2 j : Nat) (dbuf : List Nat) (nsi : Nat) (rest : List Byte) (d : List Nat)
      (dlen : Nat), j < 4 →
      quantumLoop URLEncoding src si j dbuf = .brk nsi rest d dlen none →
      ∃ nsi2, quantumLoop URLEncoding (withoutNewlines src) si2 j dbuf =
        .brk nsi2 (withoutNewlines rest) d dlen none := by
  induction src with
  | nil =>
    intro si si2 j dbuf nsi rest d dlen _ h
    rw [quantumLoop_nil] at h
    split at h <;> simp at h
  | cons c tl ih =>
    intro si si2 j dbuf nsi rest d dlen hj h
    by_cases ha : c ∈ encodeURL
    · obtain ⟨n10, n13, _⟩ := encodeURL_not_special c ha
      rw [quantumLoop_alpha _ _ _ _ _ ha] at h
      rw [withoutNewlines_cons_keep c tl n10 n13, quantumLoop_alpha _ _ _ _ _ ha]
      by_cases hj4 : j + 1 < 4
      · rw [if_pos hj4] at h ⊢
        exact ih (si + 1) (si2 + 1) (j + 1) _ nsi rest d dlen hj4 h
      · rw [if_neg hj4] at h ⊢
        simp only [LoopExit.brk.injEq] at h
        obtain ⟨_, hr, hd, hl, _⟩ := h
        subst hr hd hl
        exact ⟨si2 + 1, rfl⟩
    · by_cases hn : c = 10 ∨ c = 13
      · rw [quantumLoop_newline _ _ _ _ _ hn] at h
        rw [withoutNewlines_cons_skip c tl hn]
        exact ih (si + 1) si2 j dbuf nsi rest d dlen hj h
      · have n10 : c ≠ 10 := fun x => hn (Or.inl x)
        have n13 : c ≠ 13 := fun x => hn (Or.inr x)
        by_cases hp : c = 61
        · subst hp
          rw [quantumLoop_pad] at h
          rw [withoutNewlines_cons_keep 61 tl n10 n13, quantumLoop_pad,
            skipNewlines_withoutNewlines]
          obtain ⟨_, ss, _⟩ := skipNewlines_spec tl (si + 1)
          rcases j with _ | _ | _ | j
          · simp at h
          · simp at h
          · rcases hsk : skipNewlines tl (si + 1) with ⟨l2, k2⟩
            rw [hsk] at h ss
            simp only at h ss
            cases l2 with
            | nil => simp at h
            | cons c2 rest2 =>
              simp only at h
              by_cases h2 : c2 ≠ 61
              · rw [if_pos h2] at h; simp at h
              · rw [if_neg h2] at h
                have h2' : c2 = 61 := by simpa using h2
                subst h2'
                obtain ⟨_, ts, _⟩ := skipNewlines_spec rest2 (k2 + 1)
                simp only [LoopExit.brk.injEq] at h
                obtain ⟨_, hr, hd, hl, he⟩ := h
                have hnil : (skipNewlines rest2 (k2 + 1)).1 = [] := by
                  by_contra hne
                  rw [if_pos hne] at he
                  simp at he
                rw [hnil] at hr ts
                have e1 : withoutNewlines rest2 = [] := by rw [← ts]; rfl
                have e2 : withoutNewlines tl = [61] := by
                  rw [← ss, withoutNewlines_cons_keep 61 rest2 (by decide) (by decide), e1]
                rw [e2]
                subst hr hd hl
                exact ⟨si2 + 1 + 1, by simp [skipNewlines, withoutNewlines_nil]⟩
          · have hj3 : j = 0 := by omega
            subst hj3
            simp only [LoopExit.brk.injEq] at h
            obtain ⟨_, hr, hd, hl, he⟩ := h
            have hnil : (skipNewlines tl (si + 1)).1 = [] := by
              by_contra hne
              rw [if_pos hne] at he
              simp at he
            rw [hnil] at hr ss
            have e1 : withoutNewlines tl = [] := by rw [← ss]; rfl
            rw [e1]
            subst hr hd hl
            exact ⟨si2 + 1, by simp [withoutNewlines_nil]⟩
        · rw [quantumLoop_illegal _ _ _ _ _ ha n10 n13 hp] at h
          simp at h

theorem decodeQuantum_of_brk (src src2 : List Byte) (si si2 nsi nsi2 : Nat)
    (rest rest2 : List Byte) (d : List Nat) (dlen : Nat) (err : Option GoError)
    (h : quantumLoop URLEncoding src si 0 [0, 0, 0, 0] = .brk nsi rest d dlen err)
    (h2 : quantumLoop URLEncoding src2 si2 0 [0, 0, 0, 0] = .brk nsi2 rest2 d dlen err) :
    (decodeQuantum URLEncoding src si).err = err ∧
    (decodeQuantum URLEncoding src si).rest = rest ∧
    (decodeQuantum URLEncoding src2 si2).err = err ∧
    (decodeQuantum URLEncoding src2 si2).rest = rest2 ∧
    (decodeQuantum URLEncoding src2 si2).dst = (decodeQuantum URLEncoding src si).dst := by
  have hs : URLEncoding.strict = false := rfl
  unfold decodeQuantum
  rw [h, h2]
  simp only [hs, Bool.false_eq_true, false_and, if_false]
  split <;> simp

theorem decodeQuantum_withoutNewlines (src : List Byte) (si si2 : Nat)
    (h : (decodeQuantum URLEncoding src si).err = none) :
    (decodeQuantum URLEncoding (withoutNewlines src) si2).err = none ∧
    (decodeQuantum URLEncoding (withoutNewlines src) si2).rest =
      withoutNewlines (decodeQuantum URLEncoding src si).rest ∧
    (decodeQuantum URLEncoding (withoutNewlines src) si2).dst =
      (decodeQuantum URLEncoding src si).dst := by
  cases hq : quantumLoop URLEncoding src si 0 [0, 0, 0, 0] with
  | ret nsi rest err =>
    have e1 : decodeQuantum URLEncoding src si = ⟨nsi, rest, [], err⟩ := by
      unfold decodeQuantum; rw [hq]
    rw [e1] at h ⊢
    simp only at h
    subst h
    obtain ⟨hr, _⟩ := quantumLoop_exit src si 0 [0, 0, 0, 0] (by omega)
    obtain ⟨_, hc⟩ := hr nsi rest none hq
    rcases hc with ⟨off, ho⟩ | ⟨_, _, hrest, hw⟩
    · simp at ho
    · rw [hw, hrest]
      exact ⟨rfl, rfl, rfl⟩
  | brk nsi rest d dlen err =>
    have hs : URLEncoding.strict = false := rfl
    have he : (decodeQuantum URLEncoding src si).err = err := by
      unfold decodeQuantum
      rw [hq]
      simp only [hs, Bool.false_eq_true, false_and, if_false]
      split <;> rfl
    rw [he] at h
    subst h
    obtain ⟨nsi2, h2⟩ := quantumLoop_withoutNewlines src si si2 0 [0, 0, 0, 0] nsi rest d dlen
      (by omega) hq
    obtain ⟨_, a2, a3, a4, a5⟩ := decodeQuantum_of_brk src (withoutNewlines src) si si2 nsi nsi2
      rest (withoutNewlines rest) d dlen none hq h2
    exact ⟨a3, by rw [a4, a2], a5⟩

theorem decodeLoop_withoutNewlines : ∀ (fuel : Nat) (src : List Byte) (si : Nat)
    (dst d : List Byte), decodeLoop URLEncoding fuel src si dst = some (d, none) →
    ∀ (fuel2 si2 : Nat), (withoutNewlines src).length ≤ fuel2 →
      decodeLoop URLEncoding fuel2 (withoutNewlines src) si2 dst = some (d, none) := by
  intro fuel
  induction fuel with
  | zero =>
    intro src si dst d h fuel2 si2 _
    cases src with
    | nil =>
      simp only [decodeLoop] at h
      rw [withoutNewlines_nil]
      simpa [decodeLoop] using h
    | cons c tl => simp [decodeLoop] at h
  | succ fuel ih =>
    intro src si dst d h fuel2 si2 hf
    cases src with
    | nil =>
      simp only [decodeLoop] at h
      rw [withoutNewlines_nil]
      simpa [decodeLoop] using h
    | cons c tl =>
      simp only [decodeLoop] at h
      cases he : (decodeQuantum URLEncoding (c :: tl) si).err with
      | some e => rw [he] at h; simp at h
      | none =>
        rw [he] at h
        simp only at h
        obtain ⟨q1, q2, q3⟩ := decodeQuantum_withoutNewlines (c :: tl) si si2 he
        obtain ⟨hl, _⟩ := decodeQuantum_exit (withoutNewlines (c :: tl)) si2
        cases hw : withoutNewlines (c :: tl) with
        | nil =>
          rw [hw] at q2 q3
          have r1 : (decodeQuantum URLEncoding [] si2).rest = [] := by
            unfold decodeQuantum; rw [quantumLoop_nil]; rfl
          have r2 : (decodeQuantum URLEncoding [] si2).dst = [] := by
            unfold decodeQuantum; rw [quantumLoop_nil]; rfl
          rw [r1] at q2
          rw [r2] at q3
          have h3 := ih _ _ _ _ h 0 0 (by rw [← q2]; simp)
          rw [← q2, ← q3] at h3
          simp only [decodeLoop, List.append_nil, Option.some.injEq, Prod.mk.injEq,
            and_true] at h3
          simp only [decodeLoop, Option.some.injEq, Prod.mk.injEq, and_true]
          exact h3
        | cons c2 tl2 =>
          rw [hw] at q1 q2 q3 hl hf
          simp only [List.length_cons] at hl hf
          cases fuel2 with
          | zero => omega
          | succ fuel2 =>
            simp only [decodeLoop, q1]
            rw [q2, q3]
            apply ih _ _ _ _ h
            rw [← q2]
            omega

theorem encodeAt_decodeMap : ∀ c : Byte, c ∈ encodeURL →
    encodeAt URLEncoding (decodeMap URLEncoding c) = c ∧ decodeMap URLEncoding c < 64 := by
  decide!

theorem ofNat_val (x : Nat) : ((Fin.ofNat x : Byte)).val = x % 256 := rfl

theorem decodeQuantum_sextets4 (v0 v1 v2 v3 : Nat) (h0 : v0 < 64) (h1 : v1 < 64) (h2 : v2 < 64)
    (h3 : v3 < 64) (rest : List Byte) (si : Nat) :
    ∃ b0 b1 b2 : Byte,
      decodeQuantum URLEncoding
        (encodeAt URLEncoding v0 :: encodeAt URLEncoding v1 :: encodeAt URLEncoding v2 ::
          encodeAt URLEncoding v3 :: rest) si = ⟨si + 4, rest, [b0, b1, b2], none⟩ ∧
      ∀ tail, Encode URLEncoding (b0 :: b1 :: b2 :: tail) =
        encodeAt URLEncoding v0 :: encodeAt URLEncoding v1 :: encodeAt URLEncoding v2 ::
          encodeAt URLEncoding v3 :: Encode URLEncoding tail := by
  refine ⟨Fin.ofNat ((v0 <<< 18 ||| v1 <<< 12 ||| v2 <<< 6 ||| v3) >>> 16),
    Fin.ofNat ((v0 <<< 18 ||| v1 <<< 12 ||| v2 <<< 6 ||| v3) >>> 8),
    Fin.ofNat ((v0 <<< 18 ||| v1 <<< 12 ||| v2 <<< 6 ||| v3) >>> 0), ?_, ?_⟩
  · unfold decodeQuantum
    rw [quantumLoop_four _ _ _ _ h0 h1 h2 h3]
    simp only [List.getD_cons_zero, List.getD_cons_succ]
  · intro tail
    simp only [Encode, ofNat_val, sextets_val _ _ _ _ h1 h2 h3, Nat.shiftRight_eq_div_pow]
    rw [group_val _ _ _ (by omega) (by omega)]
    simp only [and_63, Nat.shiftRight_eq_div_pow]
    have e0 : ((v0 * 262144 + v1 * 4096 + v2 * 64 + v3) / 2 ^ 16 % 256 * 65536 +
        (v0 * 262144 + v1 * 4096 + v2 * 64 + v3) / 2 ^ 8 % 256 * 256 +
        (v0 * 262144 + v1 * 4096 + v2 * 64 + v3) / 2 ^ 0 % 256) =
        v0 * 262144 + v1 * 4096 + v2 * 64 + v3 := by omega
    rw [e0]
    have a0 : (v0 * 262144 + v1 * 4096 + v2 * 64 + v3) / 2 ^ 18 % 64 = v0 := by omega
    have a1 : (v0 * 262144 + v1 * 4096 + v2 * 64 + v3) / 2 ^ 12 % 64 = v1 := by omega
    have a2 : (v0 * 262144 + v1 * 4096 + v2 * 64 + v3) / 2 ^ 6 % 64 = v2 := by omega
    have a3 : (v0 * 262144 + v1 * 4096 + v2 * 64 + v3) % 64 = v3 := by omega
    rw [a0, a1, a2, a3]

theorem decodeQuantum_sextets3 (v0 v1 v2 : Nat) (h0 : v0 < 64) (h1 : v1 < 64) (h2 : v2 < 64)
    (si : Nat) :
    ∃ b0 b1 : Byte,
      decodeQuantum URLEncoding
        [encodeAt URLEncoding v0, encodeAt URLEncoding v1, encodeAt URLEncoding v2, 61] si =
        ⟨si + 4, [], [b0, b1], none⟩ ∧
      Encode URLEncoding [b0, b1] =
        [encodeAt URLEncoding v0, encodeAt URLEncoding v1, encodeAt URLEncoding (v2 / 4 * 4), 61] := by
  have e0 := decodeMap_encodeAt ⟨v0, h0⟩
  have e1 := decodeMap_encodeAt ⟨v1, h1⟩
  have e2 := decodeMap_encodeAt ⟨v2, h2⟩
  simp only at e0 e1 e2
  have hp : URLEncoding.padChar = some 61 := rfl
  have hs : URLEncoding.strict = false := rfl
  have q : quantumLoop URLEncoding
      [encodeAt URLEncoding v0, encodeAt URLEncoding v1, encodeAt URLEncoding v2, 61] si 0
        [0, 0, 0, 0] = .brk (si + 4) [] [v0, v1, v2, 0] 3 none := by
    simp only [quantumLoop, e0, e1, e2, decodeMap_pad, hp, skipNewlines]
    have m0 : v0 ≠ 255 := by omega
    have m1 : v1 ≠ 255 := by omega
    have m2 : v2 ≠ 255 := by omega
    simp [m0, m1, m2]
  refine ⟨Fin.ofNat ((v0 <<< 18 ||| v1 <<< 12 ||| v2 <<< 6 ||| 0) >>> 16),
    Fin.ofNat ((v0 <<< 18 ||| v1 <<< 12 ||| v2 <<< 6 ||| 0) >>> 8), ?_, ?_⟩
  · unfold decodeQuantum
    rw [q]
    simp only [List.getD_cons_zero, List.getD_cons_succ, hs, Bool.false_eq_true, false_and,
      if_false]
  · have hE : ∀ b0 b1 : Byte, Encode URLEncoding [b0, b1] =
        [encodeAt URLEncoding ((b0.val <<< 16 ||| b1.val <<< 8) >>> 18 &&& 0x3F),
         encodeAt URLEncoding ((b0.val <<< 16 ||| b1.val <<< 8) >>> 12 &&& 0x3F),
         encodeAt URLEncoding ((b0.val <<< 16 ||| b1.val <<< 8) >>> 6 &&& 0x3F), 61] :=
      fun _ _ => rfl
    rw [hE]
    simp only [ofNat_val, sextets_val _ _ _ _ h1 h2 (by omega : 0 < 64),
      Nat.shiftRight_eq_div_pow]
    rw [group2_val _ _ (by omega)]
    simp only [and_63, Nat.shiftRight_eq_div_pow]
    have a0 : ((v0 * 262144 + v1 * 4096 + v2 * 64 + 0) / 2 ^ 16 % 256 * 65536 +
        (v0 * 262144 + v1 * 4096 + v2 * 64 + 0) / 2 ^ 8 % 256 * 256) / 2 ^ 18 % 64 = v0 := by
      omega
    have a1 : ((v0 * 262144 + v1 * 4096 + v2 * 64 + 0) / 2 ^ 16 % 256 * 65536 +
        (v0 * 262144 + v1 * 4096 + v2 * 64 + 0) / 2 ^ 8 % 256 * 256) / 2 ^ 12 % 64 = v1 := by
      omega
    have a2 : ((v0 * 262144 + v1 * 4096 + v2 * 64 + 0) / 2 ^ 16 % 256 * 65536 +
        (v0 * 262144 + v1 * 4096 + v2 * 64 + 0) / 2 ^ 8 % 256 * 256) / 2 ^ 6 % 64 =
        v2 / 4 * 4 := by
      omega
    rw [a0, a1, a2]

theorem decodeQuantum_sextets2 (v0 v1 : Nat) (h0 : v0 < 64) (h1 : v1 < 64) (si : Nat) :
    ∃ b0 : Byte,
      decodeQuantum URLEncoding
        [encodeAt URLEncoding v0, encodeAt URLEncoding v1, 61, 61] si =
        ⟨si + 4, [], [b0], none⟩ ∧
      Encode URLEncoding [b0] =
        [encodeAt URLEncoding v0, encodeAt URLEncoding (v1 / 16 * 16), 61, 61] := by
  have e0 := decodeMap_encodeAt ⟨v0, h0⟩
  have e1 := decodeMap_encodeAt ⟨v1, h1⟩
  simp only at e0 e1
  have hp : URLEncoding.padChar = some 61 := rfl
  have hs : URLEncoding.strict = false := rfl
  have q : quantumLoop URLEncoding
      [encodeAt URLEncoding v0, encodeAt URLEncoding v1, 61, 61] si 0 [0, 0, 0, 0] =
        .brk (si + 4) [] [v0, v1, 0, 0] 2 none := by
    simp only [quantumLoop, e0, e1, decodeMap_pad, hp, skipNewlines]
    have m0 : v0 ≠ 255 := by omega
    have m1 : v1 ≠ 255 := by omega
    simp [m0, m1, skipNewlines]
  refine ⟨Fin.ofNat ((v0 <<< 18 ||| v1 <<< 12 ||| 0 <<< 6 ||| 0) >>> 16), ?_, ?_⟩
  · unfold decodeQuantum
    rw [q]
    simp only [List.getD_cons_zero, List.getD_cons_succ, hs, Bool.false_eq_true, false_and,
      if_false]
  · have hE : ∀ b0 : Byte, Encode URLEncoding [b0] =
        [encodeAt URLEncoding ((b0.val <<< 16) >>> 18 &&& 0x3F),
         encodeAt URLEncoding ((b0.val <<< 16) >>> 12 &&& 0x3F), 61, 61] :=
      fun _ => rfl
    rw [hE]
    simp only [ofNat_val, sextets_val _ _ _ _ h1 (by omega : 0 < 64) (by omega : 0 < 64)]
    simp only [Nat.shiftRight_eq_div_pow, Nat.shiftLeft_eq, and_63]
    have a0 : (v0 * 262144 + v1 * 4096 + 0 * 64 + 0) / 2 ^ 16 % 256 * 2 ^ 16 / 2 ^ 18 % 64 =
        v0 := by omega
    have a1 : (v0 * 262144 + v1 * 4096 + 0 * 64 + 0) / 2 ^ 16 % 256 * 2 ^ 16 / 2 ^ 12 % 64 =
        v1 / 16 * 16 := by omega
    rw [a0, a1]

theorem decodeLoop_nil (fuel si : Nat) (dst : List Byte) :
    decodeLoop URLEncoding fuel [] si dst = some (dst, none) := by
  cases fuel <;> rfl

theorem decodeMap_encodeAt_lt (v : Nat) (h : v < 64) :
    decodeMap URLEncoding (encodeAt URLEncoding v) = v :=
  decodeMap_encodeAt ⟨v, h⟩

theorem decodeLoop_canonical : ∀ (n : Nat) (body pad : List Byte), body.length ≤ n →
    (∀ c ∈ body, c ∈ encodeURL) → (pad = [] ∨ pad = [61] ∨ pad = [61, 61]) →
    (body ++ pad).length % 4 = 0 →
    ∀ (fuel si : Nat) (dst d : List Byte),
      decodeLoop URLEncoding fuel (body ++ pad) si dst = some (d, none) →
      ∃ d2, d = dst ++ d2 ∧
        (body ++ pad = Encode URLEncoding d2 ∨
          ∃ pre c c2 pd, body ++ pad = pre ++ c :: pd ∧
            Encode URLEncoding d2 = pre ++ c2 :: pd ∧ c ∈ encodeURL ∧ c2 ∈ encodeURL ∧
            ((pd = [61] ∧ decodeMap URLEncoding c / 4 = decodeMap URLEncoding c2 / 4 ∧
                decodeMap URLEncoding c2 % 4 = 0) ∨
             (pd = [61, 61] ∧ decodeMap URLEncoding c / 16 = decodeMap URLEncoding c2 / 16 ∧
                decodeMap URLEncoding c2 % 16 = 0))) := by
  intro n
  induction n using Nat.strong_induction_on with
  | _ n ih =>
    intro body pad hn hall hpad hlen fuel si dst d h
    rcases body with _ | ⟨c0, _ | ⟨c1, _ | ⟨c2, _ | ⟨c3, body2⟩⟩⟩⟩
    · -- no character left: the padding must be empty
      have hp : pad = [] := by
        rcases hpad with hp | hp | hp
        · exact hp
        · subst hp; simp only [List.length_append, List.length_cons, List.length_nil] at hlen; omega
        · subst hp; simp only [List.length_append, List.length_cons, List.length_nil] at hlen; omega
      subst hp
      rw [List.append_nil, decodeLoop_nil] at h
      simp only [Option.some.injEq, Prod.mk.injEq, and_true] at h
      exact ⟨[], by simp [h], Or.inl rfl⟩
    · rcases hpad with hp | hp | hp <;> subst hp <;>
        simp only [List.length_append, List.length_cons, List.length_nil] at hlen <;> omega
    · -- two characters and "=="
      have hp : pad = [61, 61] := by
        rcases hpad with hp | hp | hp
        · subst hp; simp only [List.length_append, List.length_cons, List.length_nil] at hlen; omega
        · subst hp; simp only [List.length_append, List.length_cons, List.length_nil] at hlen; omega
        · exact hp
      subst hp
      obtain ⟨k0, w0⟩ := encodeAt_decodeMap c0 (hall c0 (by simp))
      obtain ⟨k1, w1⟩ := encodeAt_decodeMap c1 (hall c1 (by simp))
      obtain ⟨b0, hq, hE⟩ := decodeQuantum_sextets2 _ _ w0 w1 si
      rw [k0, k1] at hq
      rw [k0] at hE
      have hu : [c0, c1] ++ [61, 61] = [c0, c1, 61, 61] := rfl
      rw [hu] at h
      cases fuel with
      | zero => simp [decodeLoop] at h
      | succ fuel =>
        simp only [decodeLoop, hq, decodeLoop_nil, Option.some.injEq, Prod.mk.injEq,
          and_true] at h
        have hw : decodeMap URLEncoding c1 / 16 * 16 < 64 := by omega
        exact ⟨[b0], h.symm, Or.inr ⟨[c0], c1,
          encodeAt URLEncoding (decodeMap URLEncoding c1 / 16 * 16), [61, 61], rfl, hE,
          hall c1 (by simp), encodeAt_mem ⟨_, hw⟩,
          Or.inr ⟨rfl, by
            rw [decodeMap_encodeAt_lt _ hw]
            constructor <;> omega⟩⟩⟩
    · -- three characters and "="
      have hp : pad = [61] := by
        rcases hpad with hp | hp | hp
        · subst hp; simp only [List.length_append, List.length_cons, List.length_nil] at hlen; omega
        · exact hp
        · subst hp; simp only [List.length_append, List.length_cons, List.length_nil] at hlen; omega
      subst hp
      obtain ⟨k0, w0⟩ := encodeAt_decodeMap c0 (hall c0 (by simp))
      obtain ⟨k1, w1⟩ := encodeAt_decodeMap c1 (hall c1 (by simp))
      obtain ⟨k2, w2⟩ := encodeAt_decodeMap c2 (hall c2 (by simp))
      obtain ⟨b0, b1, hq, hE⟩ := decodeQuantum_sextets3 _ _ _ w0 w1 w2 si
      rw [k0, k1, k2] at hq
      rw [k0, k1] at hE
      have hu : [c0, c1, c2] ++ [61] = [c0, c1, c2, 61] := rfl
      rw [hu] at h
      cases fuel with
      | zero => simp [decodeLoop] at h
      | succ fuel =>
        simp only [decodeLoop, hq, decodeLoop_nil, Option.some.injEq, Prod.mk.injEq,
          and_true] at h
        have hw : decodeMap URLEncoding c2 / 4 * 4 < 64 := by omega
        exact ⟨[b0, b1], h.symm, Or.inr ⟨[c0, c1], c2,
          encodeAt URLEncoding (decodeMap URLEncoding c2 / 4 * 4), [61], rfl, hE,
          hall c2 (by simp), encodeAt_mem ⟨_, hw⟩,
          Or.inl ⟨rfl, by
            rw [decodeMap_encodeAt_lt _ hw]
            constructor <;> omega⟩⟩⟩
    · -- a whole quantum
      obtain ⟨k0, w0⟩ := encodeAt_decodeMap c0 (hall c0 (by simp))
      obtain ⟨k1, w1⟩ := encodeAt_decodeMap c1 (hall c1 (by simp))
      obtain ⟨k2, w2⟩ := encodeAt_decodeMap c2 (hall c2 (by simp))
      obtain ⟨k3, w3⟩ := encodeAt_decodeMap c3 (hall c3 (by simp))
      obtain ⟨b0, b1, b2, hq, hE⟩ := decodeQuantum_sextets4 _ _ _ _ w0 w1 w2 w3 (body2 ++ pad) si
      rw [k0, k1, k2, k3] at hq
      rw [k0, k1, k2, k3] at hE
      have hu : (c0 :: c1 :: c2 :: c3 :: body2) ++ pad = c0 :: c1 :: c2 :: c3 :: (body2 ++ pad) :=
        rfl
      rw [hu] at h hlen ⊢
      cases fuel with
      | zero => simp [decodeLoop] at h
      | succ fuel =>
        simp only [decodeLoop, hq] at h
        simp only [List.length_cons] at hn
        have hlen2 : (body2 ++ pad).length % 4 = 0 := by
          simp only [List.length_cons] at hlen
          omega
        obtain ⟨d3, hd3, hag⟩ := ih body2.length (by omega) body2 pad (le_refl _)
          (fun c hc => hall c (by simp [hc])) hpad hlen2 fuel (si + 4) (dst ++ [b0, b1, b2]) d h
        refine ⟨b0 :: b1 :: b2 :: d3, by rw [hd3]; simp, ?_⟩
        rw [hE d3]
        rcases hag with hag | ⟨pre, c, c', pd, e1, e2, m1, m2, hbits⟩
        · left
          rw [hag]
        · right
          exact ⟨c0 :: c1 :: c2 :: c3 :: pre, c, c', pd,
            by rw [e1]; rfl, by rw [e2]; rfl, m1, m2, hbits⟩

theorem withoutNewlines_eq_self (t : List Byte) (h : ∀ c ∈ t, c ≠ 10 ∧ c ≠ 13) :
    withoutNewlines t = t := by
  unfold withoutNewlines
  rw [List.filter_eq_self]
  intro c hc
  simpa using h c hc

/-- The text of a token that `unwrap` accepts: without its newlines it is
`wrap s o`, but for the unused low bits of the last character before a
padding. -/
theorem unwrap_token_text (t s o : List Byte)
    (h : unwrap t = some (.ok { StorageId := s, OpaqueId := o })) :
    withoutNewlines t = wrap s o ∨
      ∃ pre c c2 pd, withoutNewlines t = pre ++ c :: pd ∧ wrap s o = pre ++ c2 :: pd ∧
        c ∈ encodeURL ∧ c2 ∈ encodeURL ∧
        ((pd = [61] ∧ decodeMap URLEncoding c / 4 = decodeMap URLEncoding c2 / 4 ∧
            decodeMap URLEncoding c2 % 4 = 0) ∨
         (pd = [61, 61] ∧ decodeMap URLEncoding c / 16 = decodeMap URLEncoding c2 / 16 ∧
            decodeMap URLEncoding c2 % 16 = 0)) := by
  obtain ⟨hd, _, _, _⟩ := (unwrap_ok_iff t _).1 h
  simp only at hd
  obtain ⟨d, e, hd2, _, hacc⟩ := DecodeString_exit t
  rw [hd] at hd2
  simp only [Option.some.injEq, Prod.mk.injEq] at hd2
  obtain ⟨hd3, he⟩ := hd2
  obtain ⟨body, pad, eb, hall, hp, hlen⟩ := hacc he.symm
  have h1 := decodeLoop_withoutNewlines t.length t 0 [] _ hd (withoutNewlines t).length 0
    (le_refl _)
  rw [eb] at h1 hlen
  obtain ⟨d2, hd4, hag⟩ := decodeLoop_canonical body.length body pad (le_refl _) hall hp hlen
    _ _ _ _ h1
  rw [List.nil_append] at hd4
  have hw : wrap s o = Encode URLEncoding d2 := by
    rw [← hd4]
    simp [wrap, EncodeToString, idDelimiter]
  rw [eb, hw]
  exact hag

/-! ## The claims -/

/-- C1: round trip. For all byte strings `s` and `o` that are valid UTF-8, with
no `':'` (byte 58) in `s`, `unwrap (wrap s o)` returns, without error, the
`ResourceId` whose `StorageId` is `s` and whose `OpaqueId` is `o`, and
`OwnCloudResourceIDUnwrap (OwnCloudResourceIDWrap r)` is that non-nil `r`;
`s` and `o` may be empty. -/
theorem unwrap_wrap_roundtrip (s o : List Byte) (hs : ValidString s = true)
    (ho : ValidString o = true) (hd : (58 : Byte) ∉ s) :
    unwrap (wrap s o) = some (.ok { StorageId := s, OpaqueId := o }) ∧
    OwnCloudResourceIDUnwrap (OwnCloudResourceIDWrap { StorageId := s, OpaqueId := o }) =
      some (some { StorageId := s, OpaqueId := o }) := by
  have h := unwrap_wrap_of_no_delim s o hs ho hd
  exact ⟨h, by simp [OwnCloudResourceIDUnwrap, OwnCloudResourceIDWrap, h]⟩

/-- C1 at `("home", "")` and at `("", "")`. -/
theorem unwrap_wrap_roundtrip_witness :
    (ValidString (ascii "home") = true ∧ ValidString (ascii "") = true ∧
      (58 : Byte) ∉ ascii "home") ∧
    (unwrap (wrap (ascii "home") (ascii "")) =
        some (.ok { StorageId := ascii "home", OpaqueId := ascii "" }) ∧
      OwnCloudResourceIDUnwrap
          (OwnCloudResourceIDWrap { StorageId := ascii "home", OpaqueId := ascii "" }) =
        some (some { StorageId := ascii "home", OpaqueId := ascii "" })) ∧
    (unwrap (wrap [] []) = some (.ok { StorageId := [], OpaqueId := [] }) ∧
      OwnCloudResourceIDUnwrap (OwnCloudResourceIDWrap { StorageId := [], OpaqueId := [] }) =
        some (some { StorageId := [], OpaqueId := [] })) :=
  ⟨⟨by decide, by decide, by decide⟩,
    unwrap_wrap_roundtrip (ascii "home") (ascii "") (by decide) (by decide) (by decide),
    unwrap_wrap_roundtrip [] [] (by decide) (by decide) (by decide)⟩

/-- C2, refuted as stated: `"a:b"` and `"c"` are valid UTF-8, yet
`unwrap (wrap "a:b" "c")` is the `ResourceId` `("a", "b:c")`, not `("a:b", "c")`. -/
theorem roundtrip_fails_on_delimiter_in_storage_id :
    ValidString (ascii "a:b") = true ∧ ValidString (ascii "c") = true ∧
    unwrap (wrap (ascii "a:b") (ascii "c")) =
      some (.ok { StorageId := ascii "a", OpaqueId := ascii "b:c" }) ∧
    unwrap (wrap (ascii "a:b") (ascii "c")) ≠
      some (.ok { StorageId := ascii "a:b", OpaqueId := ascii "c" }) := by
  decide

/-- C2, amended: for valid UTF-8 `s` and `o`, `unwrap (wrap s o)` equals the
`ResourceId` `(s, o)` exactly if and only if `s` contains no `':'` (byte 58). -/
theorem unwrap_wrap_eq_iff (s o : List Byte) (hs : ValidString s = true)
    (ho : ValidString o = true) :
    unwrap (wrap s o) = some (.ok { StorageId := s, OpaqueId := o }) ↔ (58 : Byte) ∉ s := by
  constructor
  · intro h hmem
    obtain ⟨p0, p1, e, hn⟩ := exists_first_delim 58 s hmem
    have hdec : DecodeString URLEncoding (wrap s o) =
        some (p0 ++ 58 :: (p1 ++ 58 :: o), none) := by
      rw [wrap_decodes, e]; simp
    rw [unwrap_split _ p0 _ hdec hn] at h
    split at h
    · simp at h
    · simp only [Option.some.injEq, Except.ok.injEq, ResourceId.mk.injEq] at h
      rw [← h.1] at hmem
      exact hn hmem
  · exact unwrap_wrap_of_no_delim s o hs ho

/-- C2 amended, at `("sid", "a:b:c")` and at `("a:b", "c")`. -/
theorem unwrap_wrap_eq_iff_witness :
    (ValidString (ascii "sid") = true ∧ ValidString (ascii "a:b:c") = true ∧
      ValidString (ascii "a:b") = true ∧ ValidString (ascii "c") = true) ∧
    (unwrap (wrap (ascii "sid") (ascii "a:b:c")) =
      some (.ok { StorageId := ascii "sid", OpaqueId := ascii "a:b:c" }) ↔
      (58 : Byte) ∉ ascii "sid") ∧
    (unwrap (wrap (ascii "a:b") (ascii "c")) =
      some (.ok { StorageId := ascii "a:b", OpaqueId := ascii "c" }) ↔
      (58 : Byte) ∉ ascii "a:b") :=
  ⟨⟨by decide, by decide, by decide, by decide⟩,
   unwrap_wrap_eq_iff (ascii "sid") (ascii "a:b:c") (by decide) (by decide),
   unwrap_wrap_eq_iff (ascii "a:b") (ascii "c") (by decide) (by decide)⟩

/-- C3: alphabet safety. For all byte strings `s` and `o`, every character of
`wrap s o` is in `A`-`Z` (65-90), `a`-`z` (97-122), `0`-`9` (48-57), `'_'` (95),
`'-'` (45) or `'='` (61); none is `'<'` (60), `'&'` (38), `'/'` (47), `'+'` (43)
or a space (32); and `'='` occurs only as trailing padding: the token is a body
without `'='` followed by no, one or two `'='`. -/
theorem wrap_alphabet_safe (s o : List Byte) :
    (∀ c ∈ wrap s o,
      (65 ≤ c.val ∧ c.val ≤ 90) ∨ (97 ≤ c.val ∧ c.val ≤ 122) ∨ (48 ≤ c.val ∧ c.val ≤ 57) ∨
        c.val = 95 ∨ c.val = 45 ∨ c.val = 61) ∧
    (∀ c ∈ wrap s o, c.val ≠ 60 ∧ c.val ≠ 38 ∧ c.val ≠ 47 ∧ c.val ≠ 43 ∧ c.val ≠ 32) ∧
    (∃ body pad, wrap s o = body ++ pad ∧ (61 : Byte) ∉ body ∧
      (pad = [] ∨ pad = [61] ∨ pad = [61, 61])) := by
  obtain ⟨body, pad, e, hb, hp⟩ := Encode_shape (s ++ idDelimiter ++ o)
  have hset : ∀ c ∈ wrap s o,
      (65 ≤ c.val ∧ c.val ≤ 90) ∨ (97 ≤ c.val ∧ c.val ≤ 122) ∨ (48 ≤ c.val ∧ c.val ≤ 57) ∨
        c.val = 95 ∨ c.val = 45 ∨ c.val = 61 := by
    intro c hc
    have hc2 : c ∈ body ++ pad := by rw [← e]; exact hc
    rcases List.mem_append.1 hc2 with hc3 | hc3
    · have := encodeURL_chars c (hb c hc3)
      omega
    · rcases hp with hp | hp | hp <;> subst hp <;> simp at hc3 <;> subst hc3 <;> decide
  refine ⟨hset, ?_, body, pad, e, ?_, hp⟩
  · intro c hc
    have := hset c hc
    omega
  · intro h61
    exact (encodeURL_not_special 61 (hb 61 h61)).2.2 rfl

/-- C4: the concrete vector. `wrap "home" "1284d238-aa92-42ce-bdc4-0b0000009157"`
is the token `aG9tZToxMjg0ZDIzOC1hYTkyLTQyY2UtYmRjNC0wYjAwMDAwMDkxNTc=`, and
`unwrap` of that token returns, without error, the `ResourceId` with
`StorageId` `"home"` and `OpaqueId` `"1284d238-aa92-42ce-bdc4-0b0000009157"`. -/
theorem wrap_unwrap_concrete_vector :
    wrap (ascii "home") (ascii "1284d238-aa92-42ce-bdc4-0b0000009157") =
      ascii "aG9tZToxMjg0ZDIzOC1hYTkyLTQyY2UtYmRjNC0wYjAwMDAwMDkxNTc=" ∧
    unwrap (ascii "aG9tZToxMjg0ZDIzOC1hYTkyLTQyY2UtYmRjNC0wYjAwMDAwMDkxNTc=") =
      some (.ok { StorageId := ascii "home",
                  OpaqueId := ascii "1284d238-aa92-42ce-bdc4-0b0000009157" }) := by
  decide!

/-- C5, refuted as stated: the token `"Og==\n"` contains a character outside
`[A-Za-z0-9]`, `'-'`, `'_'`, `'='` (its last one, the line feed), yet `unwrap`
returns the `ResourceId` `("", "")` for it and no error. -/
theorem unwrap_accepts_newline :
    (∃ c ∈ ascii "Og==\n",
      ¬ ((65 ≤ c.val ∧ c.val ≤ 90) ∨ (97 ≤ c.val ∧ c.val ≤ 122) ∨ (48 ≤ c.val ∧ c.val ≤ 57) ∨
        c.val = 45 ∨ c.val = 95 ∨ c.val = 61)) ∧
    unwrap (ascii "Og==\n") = some (.ok { StorageId := [], OpaqueId := [] }) :=
  ⟨⟨10, by decide, by decide⟩, by decide⟩

/-- C5, amended: the decoder skips `'\r'` (13) and `'\n'` (10). For every token
that contains a character other than these two outside `[A-Za-z0-9]`, `'-'`,
`'_'`, `'='`, or whose padding is invalid once these two are removed (what is
left is not a body without `'='` followed by no, one or two `'='`, of a length
that is a multiple of 4), `unwrap` fails with a `base64.CorruptInputError` and
`OwnCloudResourceIDUnwrap` returns nil. -/
theorem unwrap_bad_encoding (t : List Byte)
    (h : (∃ c ∈ t, c ≠ 10 ∧ c ≠ 13 ∧
            ¬ ((65 ≤ c.val ∧ c.val ≤ 90) ∨ (97 ≤ c.val ∧ c.val ≤ 122) ∨
              (48 ≤ c.val ∧ c.val ≤ 57) ∨ c.val = 45 ∨ c.val = 95 ∨ c.val = 61)) ∨
         ¬ ∃ body pad, withoutNewlines t = body ++ pad ∧ (61 : Byte) ∉ body ∧
            (pad = [] ∨ pad = [61] ∨ pad = [61, 61]) ∧ (withoutNewlines t).length % 4 = 0) :
    (∃ off, unwrap t = some (.error (.CorruptInputError off))) ∧
    OwnCloudResourceIDUnwrap t = some none := by
  obtain ⟨d, e, hd, hx, hacc⟩ := DecodeString_exit t
  cases e with
  | some x =>
    obtain ⟨off, hoff⟩ := hx x rfl
    subst hoff
    have hu := unwrap_corrupt t d _ hd
    exact ⟨⟨off, hu⟩, by simp [OwnCloudResourceIDUnwrap, hu]⟩
  | none =>
    exfalso
    obtain ⟨body, pad, eb, hall, hp, hlen⟩ := hacc rfl
    rcases h with ⟨c, hc, h10, h13, hset⟩ | h
    · have hm := mem_withoutNewlines c t hc h10 h13
      rw [eb] at hm
      rcases List.mem_append.1 hm with hm | hm
      · have := encodeURL_chars c (hall c hm)
        omega
      · apply hset
        rcases hp with hp | hp | hp <;> subst hp <;> simp at hm <;> subst hm <;> decide
    · apply h
      refine ⟨body, pad, eb, ?_, hp, hlen⟩
      intro h61
      exact (encodeURL_not_special 61 (hall 61 h61)).2.2 rfl

/-- C5 amended, at `"not base64!!"` (it contains a space) and at `"Og="` (its
length is not a multiple of 4). -/
theorem unwrap_bad_encoding_witness :
    ((∃ off, unwrap (ascii "not base64!!") = some (.error (.CorruptInputError off))) ∧
      OwnCloudResourceIDUnwrap (ascii "not base64!!") = some none) ∧
    ((∃ off, unwrap (ascii "Og=") = some (.error (.CorruptInputError off))) ∧
      OwnCloudResourceIDUnwrap (ascii "Og=") = some none) :=
  ⟨unwrap_bad_encoding (ascii "not base64!!")
      (Or.inl ⟨32, by decide, by decide, by decide, by decide⟩),
   unwrap_bad_encoding (ascii "Og=")
      (Or.inr (by
        rintro ⟨body, pad, _, _, _, hlen⟩
        revert hlen
        decide))⟩

/-- C6: a missing delimiter is rejected. For every token that decodes without
error to bytes `d` with no `':'` (byte 58) in them, valid UTF-8 or not,
`unwrap` fails with the error "could not find two parts with given delimiter"
and `OwnCloudResourceIDUnwrap` returns nil. -/
theorem unwrap_missing_delimiter (t d : List Byte)
    (hd : DecodeString URLEncoding t = some (d, none)) (h : (58 : Byte) ∉ d) :
    unwrap t = some (.error (.errorString "could not find two parts with given delimiter")) ∧
    OwnCloudResourceIDUnwrap t = some none := by
  have hu := unwrap_no_delim t d hd h
  exact ⟨hu, by simp [OwnCloudResourceIDUnwrap, hu]⟩

/-- C6 at the encoding of `"nodelimiterhere"`, at the empty token, and at the
encoding of the bytes `0xFF 0xFE`, which are not valid UTF-8. -/
theorem unwrap_missing_delimiter_witness :
    (unwrap (EncodeToString URLEncoding (ascii "nodelimiterhere")) =
        some (.error (.errorString "could not find two parts with given delimiter")) ∧
      OwnCloudResourceIDUnwrap (EncodeToString URLEncoding (ascii "nodelimiterhere")) =
        some none) ∧
    (unwrap [] = some (.error (.errorString "could not find two parts with given delimiter")) ∧
      OwnCloudResourceIDUnwrap [] = some none) ∧
    (unwrap (EncodeToString URLEncoding [0xFF, 0xFE]) =
        some (.error (.errorString "could not find two parts with given delimiter")) ∧
      OwnCloudResourceIDUnwrap (EncodeToString URLEncoding [0xFF, 0xFE]) = some none) :=
  ⟨unwrap_missing_delimiter (EncodeToString URLEncoding (ascii "nodelimiterhere"))
      (ascii "nodelimiterhere") (by decide!) (by decide),
   unwrap_missing_delimiter [] [] (by decide) (by decide),
   unwrap_missing_delimiter (EncodeToString URLEncoding [0xFF, 0xFE]) [0xFF, 0xFE]
      (by decide!) (by decide)⟩

/-- C7: invalid UTF-8 is rejected. For every token that decodes without error
to bytes `p0 ++ ":" ++ p1` with no `':'` (byte 58) in `p0`, if `p0` or `p1` is
not valid UTF-8 then `unwrap` fails with the error "invalid utf8 string found"
and `OwnCloudResourceIDUnwrap` returns nil. In particular the encoding of any
bytes `s` followed by `':'` and the bytes `0xFF 0xFE` is rejected this way. -/
theorem unwrap_invalid_utf8 :
    (∀ t p0 p1 : List Byte,
      DecodeString URLEncoding t = some (p0 ++ idDelimiter ++ p1, none) → (58 : Byte) ∉ p0 →
      (ValidString p0 = false ∨ ValidString p1 = false) →
      unwrap t = some (.error (.errorString "invalid utf8 string found")) ∧
      OwnCloudResourceIDUnwrap t = some none) ∧
    (∀ s : List Byte,
      unwrap (EncodeToString URLEncoding (s ++ idDelimiter ++ [0xFF, 0xFE])) =
        some (.error (.errorString "invalid utf8 string found"))) := by
  have key : ∀ t p0 p1 : List Byte,
      DecodeString URLEncoding t = some (p0 ++ 58 :: p1, none) → (58 : Byte) ∉ p0 →
      (ValidString p0 = false ∨ ValidString p1 = false) →
      unwrap t = some (.error (.errorString "invalid utf8 string found")) := by
    intro t p0 p1 hd hn hv
    rw [unwrap_split t p0 p1 hd hn]
    rcases hv with hv | hv <;> simp [hv]
  refine ⟨fun t p0 p1 hd hn hv => ?_, fun s => ?_⟩
  · have hu := key t p0 p1 (by simpa [idDelimiter] using hd) hn hv
    exact ⟨hu, by simp [OwnCloudResourceIDUnwrap, hu]⟩
  · have hdec := DecodeString_EncodeToString (s ++ idDelimiter ++ [0xFF, 0xFE])
    by_cases hm : (58 : Byte) ∈ s
    · obtain ⟨p0, p1, e, hn⟩ := exists_first_delim 58 s hm
      refine key _ p0 (p1 ++ 58 :: [0xFF, 0xFE]) ?_ hn
        (Or.inr (ValidString_ff_false _ (by simp)))
      rw [hdec, e]
      simp [idDelimiter]
    · exact key _ s [0xFF, 0xFE] (by simpa [idDelimiter] using hdec) hm (Or.inr (by decide))

/-- C7 at the encodings of `"sid" ++ ":" ++ [0xFF, 0xFE]` (second part invalid),
of `[0xC3] ++ ":" ++ "oid"` (first part invalid) and of
`"home" ++ ":" ++ [0xFF, 0xFE]`. -/
theorem unwrap_invalid_utf8_witness :
    (unwrap (EncodeToString URLEncoding (ascii "sid" ++ idDelimiter ++ [0xFF, 0xFE])) =
        some (.error (.errorString "invalid utf8 string found")) ∧
      OwnCloudResourceIDUnwrap
        (EncodeToString URLEncoding (ascii "sid" ++ idDelimiter ++ [0xFF, 0xFE])) = some none) ∧
    (unwrap (EncodeToString URLEncoding ([0xC3] ++ idDelimiter ++ ascii "oid")) =
        some (.error (.errorString "invalid utf8 string found")) ∧
      OwnCloudResourceIDUnwrap
        (EncodeToString URLEncoding ([0xC3] ++ idDelimiter ++ ascii "oid")) = some none) ∧
    unwrap (EncodeToString URLEncoding (ascii "home" ++ idDelimiter ++ [0xFF, 0xFE])) =
        some (.error (.errorString "invalid utf8 string found")) :=
  ⟨unwrap_invalid_utf8.1 _ (ascii "sid") [0xFF, 0xFE] (by decide!) (by decide)
      (Or.inr (by decide)),
   unwrap_invalid_utf8.1 _ [0xC3] (ascii "oid") (by decide!) (by decide) (Or.inl (by decide)),
   unwrap_invalid_utf8.2 (ascii "home")⟩

/-- C8: the split is at the first delimiter only. For every token `t` on which
`unwrap` succeeds, with result `r`, the token decodes without error to some
bytes `d`, `r.StorageId` contains no `':'` (byte 58) and
`r.StorageId ++ ":" ++ r.OpaqueId = d`: every later `':'` stays in `OpaqueId`. -/
theorem unwrap_splits_at_first_delimiter (t : List Byte) (r : ResourceId)
    (h : unwrap t = some (.ok r)) :
    ∃ d, DecodeString URLEncoding t = some (d, none) ∧
      (58 : Byte) ∉ r.StorageId ∧ r.StorageId ++ idDelimiter ++ r.OpaqueId = d := by
  unfold unwrap at h
  split at h
  · simp at h
  · simp at h
  · rename_i d hd
    refine ⟨d, hd, ?_⟩
    split at h
    · rename_i a b hs
      split at h
      · simp at h
      · simp only [Option.some.injEq, Except.ok.injEq] at h
        subst h
        have := SplitN_two_parts d a b hs
        simpa [idDelimiter] using this
    · simp at h

/-- C8 at `wrap "sid" "a:b:c"`, whose `unwrap` is the `ResourceId`
`("sid", "a:b:c")`. -/
theorem unwrap_splits_at_first_delimiter_witness :
    unwrap (wrap (ascii "sid") (ascii "a:b:c")) =
      some (.ok { StorageId := ascii "sid", OpaqueId := ascii "a:b:c" }) ∧
    ∃ d, DecodeString URLEncoding (wrap (ascii "sid") (ascii "a:b:c")) = some (d, none) ∧
      (58 : Byte) ∉ ascii "sid" ∧ ascii "sid" ++ idDelimiter ++ ascii "a:b:c" = d :=
  ⟨by decide!,
   unwrap_splits_at_first_delimiter (wrap (ascii "sid") (ascii "a:b:c"))
     { StorageId := ascii "sid", OpaqueId := ascii "a:b:c" } (by decide!)⟩

/-- C9: the wire format. For all byte strings `s` and `o`, valid UTF-8 or not,
`wrap s o` is the RFC 4648 section 5 padded URL-safe base 64 encoding of the
bytes of `s`, the byte `':'` and the bytes of `o`; decoding `wrap s o` gives
exactly these bytes and no error; and `OwnCloudResourceIDWrap r` is
`wrap r.StorageId r.OpaqueId` for every non-nil `r`. -/
theorem wrap_wire_format (s o : List Byte) (r : ResourceId) :
    wrap s o = rfc4648.base64urlEncode (s ++ idDelimiter ++ o) ∧
    DecodeString URLEncoding (wrap s o) = some (s ++ idDelimiter ++ o, none) ∧
    OwnCloudResourceIDWrap r = wrap r.StorageId r.OpaqueId :=
  ⟨Encode_eq_rfc4648 _, DecodeString_EncodeToString _, rfl⟩

/-- C10, refuted as stated: the valid UTF-8 pairs `("a:b", "c")` and
`("a", "b:c")` are different and have the same token. -/
theorem wrap_collision :
    ValidString (ascii "a:b") = true ∧ ValidString (ascii "c") = true ∧
    ValidString (ascii "a") = true ∧ ValidString (ascii "b:c") = true ∧
    wrap (ascii "a:b") (ascii "c") = wrap (ascii "a") (ascii "b:c") ∧
    ascii "a:b" ≠ ascii "a" ∧ ascii "c" ≠ ascii "b:c" := by
  decide

/-- C10, amended: for all two-part identifiers `(s1, o1)` and `(s2, o2)` whose
first parts `s1` and `s2` contain no `':'` (byte 58), `wrap s1 o1 = wrap s2 o2`
implies `s1 = s2` and `o1 = o2`. -/
theorem wrap_injective_without_delimiter (s1 o1 s2 o2 : List Byte)
    (h1 : (58 : Byte) ∉ s1) (h2 : (58 : Byte) ∉ s2) (h : wrap s1 o1 = wrap s2 o2) :
    s1 = s2 ∧ o1 = o2 := by
  have e := EncodeToString_injective _ _ h
  simp only [idDelimiter, List.append_assoc, List.singleton_append] at e
  exact first_delim_unique 58 s1 o1 s2 o2 h1 h2 e

/-- C10 amended, at `("sid", "a:b")` on both sides. -/
theorem wrap_injective_without_delimiter_witness :
    (58 : Byte) ∉ ascii "sid" ∧
    wrap (ascii "sid") (ascii "a:b") = wrap (ascii "sid") (ascii "a:b") ∧
    ascii "sid" = ascii "sid" ∧ ascii "a:b" = ascii "a:b" :=
  ⟨by decide, rfl,
   wrap_injective_without_delimiter (ascii "sid") (ascii "a:b") (ascii "sid") (ascii "a:b")
     (by decide) (by decide) rfl⟩

/-- C11, refuted as stated: `unwrap` succeeds on the tokens `"Oh=="` (unused
trailing bits not zero) and `"Og==\n"` (a line feed after the padding) with the
`ResourceId` `("", "")`, yet neither token is `wrap "" ""`, nor the output of
`wrap` on any pair at all. -/
theorem unwrap_accepts_foreign_tokens :
    (unwrap (ascii "Oh==") = some (.ok { StorageId := [], OpaqueId := [] }) ∧
      ascii "Oh==" ≠ wrap [] [] ∧ ∀ s o : List Byte, wrap s o ≠ ascii "Oh==") ∧
    (unwrap (ascii "Og==\n") = some (.ok { StorageId := [], OpaqueId := [] }) ∧
      ascii "Og==\n" ≠ wrap [] [] ∧ ∀ s o : List Byte, wrap s o ≠ ascii "Og==\n") := by
  have key : ∀ (tok : List Byte), DecodeString URLEncoding tok = some ([58], none) →
      tok ≠ wrap [] [] → ∀ s o : List Byte, wrap s o ≠ tok := by
    intro tok hd hne s o h
    have h2 := wrap_decodes s o
    rw [h, hd] at h2
    simp only [Option.some.injEq, Prod.mk.injEq, and_true] at h2
    have hs : s = [] := by
      cases s with
      | nil => rfl
      | cons x xs =>
        simp only [List.cons_append, List.cons.injEq] at h2
        have := congrArg List.length h2.2
        simp only [List.length_nil, List.length_append, List.length_cons] at this
        omega
    subst hs
    simp only [List.nil_append, List.cons.injEq, true_and] at h2
    subst h2
    exact hne h.symm
  exact ⟨⟨by decide, by decide, key _ (by decide) (by decide)⟩,
    ⟨by decide, by decide, key _ (by decide) (by decide)⟩⟩

/-- C11, amended: success of `unwrap` identifies the token up to what the
decoder does not read. If `unwrap t` succeeds with the `ResourceId` `(s, o)`
then `t` without its `'\r'` and `'\n'` characters is `wrap s o`, except
possibly at the last character before the `'='` padding, where the two
characters are of the alphabet and differ at most in the bits that the padding
leaves unused (the low 2 bits before `"="`, the low 4 before `"=="`, zero in
`wrap s o`). So a token with no `'\r'`, `'\n'` and `'='` is `wrap s o` itself.
Moreover `t` decodes exactly as `wrap s o` does, `unwrap (wrap s o)` succeeds
with the same `ResourceId`, and `wrap s o` is the only output of `wrap` that
decodes as `t` does. -/
theorem unwrap_identifies_token (t s o : List Byte)
    (h : unwrap t = some (.ok { StorageId := s, OpaqueId := o })) :
    (withoutNewlines t = wrap s o ∨
      ∃ pre c c2 pd, withoutNewlines t = pre ++ c :: pd ∧ wrap s o = pre ++ c2 :: pd ∧
        c ∈ encodeURL ∧ c2 ∈ encodeURL ∧
        ((pd = [61] ∧ decodeMap URLEncoding c / 4 = decodeMap URLEncoding c2 / 4 ∧
            decodeMap URLEncoding c2 % 4 = 0) ∨
         (pd = [61, 61] ∧ decodeMap URLEncoding c / 16 = decodeMap URLEncoding c2 / 16 ∧
            decodeMap URLEncoding c2 % 16 = 0))) ∧
    ((∀ c ∈ t, c ≠ 10 ∧ c ≠ 13 ∧ c ≠ 61) → t = wrap s o) ∧
    DecodeString URLEncoding t = DecodeString URLEncoding (wrap s o) ∧
    unwrap (wrap s o) = some (.ok { StorageId := s, OpaqueId := o }) ∧
    (∀ s2 o2 : List Byte,
      DecodeString URLEncoding (wrap s2 o2) = DecodeString URLEncoding t →
      wrap s2 o2 = wrap s o) := by
  have htext := unwrap_token_text t s o h
  obtain ⟨hd, hn, hs, ho⟩ := (unwrap_ok_iff t _).1 h
  simp only at hd hn hs ho
  refine ⟨htext, ?_, by rw [hd, wrap_decodes], unwrap_wrap_of_no_delim s o hs ho hn, ?_⟩
  · intro hc
    have hself := withoutNewlines_eq_self t (fun c m => ⟨(hc c m).1, (hc c m).2.1⟩)
    rcases htext with e | ⟨pre, c, c2, pd, e1, _, _, _, hbits⟩
    · rw [← hself]; exact e
    · exfalso
      have hm : (61 : Byte) ∈ t := by
        rw [← hself, e1]
        rcases hbits with ⟨hp, _⟩ | ⟨hp, _⟩ <;> subst hp <;> simp
      exact (hc 61 hm).2.2 rfl
  · intro s2 o2 h2
    rw [wrap_decodes, hd] at h2
    simp only [Option.some.injEq, Prod.mk.injEq, and_true] at h2
    unfold wrap
    simp only [idDelimiter, List.append_assoc, List.singleton_append, h2]

/-- C11 amended, at the token `"Oh=="`, which differs from `wrap "" ""`, that
is `"Og=="`, in the unused bits of its second character, and at `"Og==\n"`,
which is `wrap "" ""` once the line feed is removed. -/
theorem unwrap_identifies_token_witness :
    ((withoutNewlines (ascii "Oh==") = wrap [] [] ∨
        ∃ pre c c2 pd, withoutNewlines (ascii "Oh==") = pre ++ c :: pd ∧
          wrap [] [] = pre ++ c2 :: pd ∧ c ∈ encodeURL ∧ c2 ∈ encodeURL ∧
          ((pd = [61] ∧ decodeMap URLEncoding c / 4 = decodeMap URLEncoding c2 / 4 ∧
              decodeMap URLEncoding c2 % 4 = 0) ∨
           (pd = [61, 61] ∧ decodeMap URLEncoding c / 16 = decodeMap URLEncoding c2 / 16 ∧
              decodeMap URLEncoding c2 % 16 = 0))) ∧
      ((∀ c ∈ ascii "Oh==", c ≠ 10 ∧ c ≠ 13 ∧ c ≠ 61) → ascii "Oh==" = wrap [] []) ∧
      DecodeString URLEncoding (ascii "Oh==") = DecodeString URLEncoding (wrap [] []) ∧
      unwrap (wrap [] []) = some (.ok { StorageId := [], OpaqueId := [] }) ∧
      (∀ s2 o2 : List Byte,
        DecodeString URLEncoding (wrap s2 o2) = DecodeString URLEncoding (ascii "Oh==") →
        wrap s2 o2 = wrap [] [])) ∧
    (withoutNewlines (ascii "Og==\n") = wrap [] [] ∨
      ∃ pre c c2 pd, withoutNewlines (ascii "Og==\n") = pre ++ c :: pd ∧
        wrap [] [] = pre ++ c2 :: pd ∧ c ∈ encodeURL ∧ c2 ∈ encodeURL ∧
        ((pd = [61] ∧ decodeMap URLEncoding c / 4 = decodeMap URLEncoding c2 / 4 ∧
            decodeMap URLEncoding c2 % 4 = 0) ∨
         (pd = [61, 61] ∧ decodeMap URLEncoding c / 16 = decodeMap URLEncoding c2 / 16 ∧
            decodeMap URLEncoding c2 % 16 = 0))) ∧
    ((∀ c ∈ ascii "aG9tZTph", c ≠ 10 ∧ c ≠ 13 ∧ c ≠ 61) →
      ascii "aG9tZTph" = wrap (ascii "home") (ascii "a")) :=
  ⟨unwrap_identifies_token (ascii "Oh==") [] [] (by decide),
   (unwrap_identifies_token (ascii "Og==\n") [] [] (by decide)).1,
   (unwrap_identifies_token (ascii "aG9tZTph") (ascii "home") (ascii "a") (by decide!)).2.1⟩

/-- C12: the collapsed entry point. For every token `t`,
`OwnCloudResourceIDUnwrap t` is nil if and only if `unwrap t` returns an error,
and is the `ResourceId` `r` if and only if `unwrap t` returns `r`; an error of
`unwrap` is a `base64.CorruptInputError`, "could not find two parts with given
delimiter" or "invalid utf8 string found"; and the two values `unwrap` returns
are a nil pointer with a non-nil error, or a non-nil pointer with a nil error,
from which `OwnCloudResourceIDUnwrap` returns nil in the first case and the
pointer in the second. -/
theorem OwnCloudResourceIDUnwrap_collapses (t : List Byte) :
    (OwnCloudResourceIDUnwrap t = some none ↔ ∃ e, unwrap t = some (.error e)) ∧
    (∀ r, OwnCloudResourceIDUnwrap t = some (some r) ↔ unwrap t = some (.ok r)) ∧
    (∀ e, unwrap t = some (.error e) →
      (∃ off, e = .CorruptInputError off) ∨
      e = .errorString "could not find two parts with given delimiter" ∨
      e = .errorString "invalid utf8 string found") ∧
    (∃ id err, unwrapValues t = some (id, err) ∧
      ((id = none ∧ err ≠ none) ∨ (id ≠ none ∧ err = none)) ∧
      (∀ e, err = some e → unwrap t = some (.error e)) ∧
      (∀ r, id = some r → unwrap t = some (.ok r)) ∧
      OwnCloudResourceIDUnwrap t = some (if err ≠ none then none else id)) := by
  refine ⟨?_, ?_, fun e h => unwrap_error_kinds t e h, ?_⟩
  · obtain ⟨r, hr⟩ := unwrap_returns t
    rw [OwnCloudResourceIDUnwrap, hr]
    cases r with
    | error e => simp
    | ok r => simp
  · intro r
    obtain ⟨r', hr⟩ := unwrap_returns t
    rw [OwnCloudResourceIDUnwrap, hr]
    cases r' with
    | error e => simp
    | ok r' => simp
  · obtain ⟨id, err, hv, hc⟩ := unwrapValues_spec t
    refine ⟨id, err, hv, ?_⟩
    rcases hc with ⟨hid, e, he, hu⟩ | ⟨he, r, hid, hu⟩
    · subst hid he
      refine ⟨Or.inl ⟨rfl, by simp⟩, ?_, by simp, by simp [OwnCloudResourceIDUnwrap, hu]⟩
      intro e' h'
      simp only [Option.some.injEq] at h'
      rw [← h']; exact hu
    · subst hid he
      refine ⟨Or.inr ⟨by simp, rfl⟩, by simp, ?_, by simp [OwnCloudResourceIDUnwrap, hu]⟩
      intro r' h'
      simp only [Option.some.injEq] at h'
      rw [← h']; exact hu

/-- C13: a delimiter inside the storage id is silently misparsed. For valid
UTF-8 `s` and `o` with a `':'` (byte 58) in `s`: `s` is `p0 ++ ":" ++ p1` for
some `p0` without `':'`; for every such cut (the one at the first `':'`),
`unwrap (wrap s o)` succeeds with `StorageId = p0` and
`OpaqueId = p1 ++ ":" ++ o`; and this result differs from the `ResourceId`
`(s, o)`. -/
theorem unwrap_misparses_delimiter_in_storage_id (s o : List Byte)
    (hs : ValidString s = true) (ho : ValidString o = true) (hm : (58 : Byte) ∈ s) :
    (∃ p0 p1 : List Byte, s = p0 ++ idDelimiter ++ p1 ∧ (58 : Byte) ∉ p0) ∧
    (∀ p0 p1 : List Byte, s = p0 ++ idDelimiter ++ p1 → (58 : Byte) ∉ p0 →
      unwrap (wrap s o) =
        some (.ok { StorageId := p0, OpaqueId := p1 ++ idDelimiter ++ o })) ∧
    unwrap (wrap s o) ≠ some (.ok { StorageId := s, OpaqueId := o }) := by
  obtain ⟨q0, q1, e, hn⟩ := exists_first_delim 58 s hm
  have main : ∀ p0 p1 : List Byte, s = p0 ++ idDelimiter ++ p1 → (58 : Byte) ∉ p0 →
      unwrap (wrap s o) =
        some (.ok { StorageId := p0, OpaqueId := p1 ++ idDelimiter ++ o }) := by
    intro p0 p1 e1 hn1
    have hv := ValidString_split p0 p1
    rw [← e1, hs] at hv
    have hv2 : ValidString p0 = true ∧ ValidString p1 = true := by
      simpa using hv.symm
    have hv3 : ValidString (p1 ++ idDelimiter ++ o) = true := by
      rw [ValidString_split, hv2.2, ho]; rfl
    have hdec : DecodeString URLEncoding (wrap s o) =
        some (p0 ++ 58 :: (p1 ++ idDelimiter ++ o), none) := by
      rw [wrap_decodes, e1]; simp [idDelimiter]
    have hv4 : ValidString (p1 ++ (idDelimiter ++ o)) = true := by
      rw [← List.append_assoc]; exact hv3
    rw [unwrap_split _ p0 _ hdec hn1]
    simp [hv2.1, hv3, hv4]
  refine ⟨⟨q0, q1, by simpa [idDelimiter] using e, hn⟩, main, ?_⟩
  rw [main q0 q1 (by simpa [idDelimiter] using e) hn]
  intro h
  simp only [Option.some.injEq, Except.ok.injEq, ResourceId.mk.injEq] at h
  rw [← h.1] at hm
  exact hn hm

/-- C13 at `("a:b", "c")`. -/
theorem unwrap_misparses_delimiter_in_storage_id_witness :
    (∃ p0 p1 : List Byte, ascii "a:b" = p0 ++ idDelimiter ++ p1 ∧ (58 : Byte) ∉ p0) ∧
    (∀ p0 p1 : List Byte, ascii "a:b" = p0 ++ idDelimiter ++ p1 → (58 : Byte) ∉ p0 →
      unwrap (wrap (ascii "a:b") (ascii "c")) =
        some (.ok { StorageId := p0, OpaqueId := p1 ++ idDelimiter ++ ascii "c" })) ∧
    unwrap (wrap (ascii "a:b") (ascii "c")) ≠
      some (.ok { StorageId := ascii "a:b", OpaqueId := ascii "c" }) :=
  unwrap_misparses_delimiter_in_storage_id (ascii "a:b") (ascii "c")
    (by decide) (by decide) (by decide)

/-- C14: the exact success condition of `unwrap`. For every token `t`,
`unwrap t` succeeds if and only if `t` decodes without error to bytes `d` that
contain `':'` (byte 58) and are valid UTF-8 as a whole; and for all `a`, `b`,
both being valid UTF-8 is the same as `a ++ ":" ++ b` being valid UTF-8. -/
theorem unwrap_succeeds_iff (t : List Byte) :
    ((∃ r, unwrap t = some (.ok r)) ↔
      ∃ d, DecodeString URLEncoding t = some (d, none) ∧ (58 : Byte) ∈ d ∧
        ValidString d = true) ∧
    (∀ a b : List Byte,
      (ValidString a = true ∧ ValidString b = true) ↔
        ValidString (a ++ idDelimiter ++ b) = true) := by
  have hsplit : ∀ a b : List Byte,
      (ValidString a = true ∧ ValidString b = true) ↔
        ValidString (a ++ idDelimiter ++ b) = true := by
    intro a b
    rw [ValidString_split]
    simp
  refine ⟨⟨?_, ?_⟩, hsplit⟩
  · rintro ⟨r, hr⟩
    obtain ⟨hd, _, h0, h1⟩ := (unwrap_ok_iff t r).1 hr
    refine ⟨_, hd, by simp, ?_⟩
    have := (hsplit r.StorageId r.OpaqueId).1 ⟨h0, h1⟩
    simpa [idDelimiter] using this
  · rintro ⟨d, hd, hm, hv⟩
    obtain ⟨p0, p1, e, hn⟩ := exists_first_delim 58 d hm
    subst e
    have hv2 : ValidString (p0 ++ idDelimiter ++ p1) = true := by
      simpa [idDelimiter] using hv
    obtain ⟨h0, h1⟩ := (hsplit p0 p1).2 hv2
    exact ⟨⟨p0, p1⟩, (unwrap_ok_iff t ⟨p0, p1⟩).2 ⟨hd, hn, h0, h1⟩⟩

/-- C15: token length. With `m` and `n` the lengths of `s` and `o`, the length
of `wrap s o` is `4 * ((m + n + 1 + 2) / 3)`, that is `4 * k` for the `k` with
`3 * (k - 1) < m + n + 1 ≤ 3 * k` (the ceiling of `(m + n + 1) / 3`); the token
is not empty, its length is a multiple of 4 and at least 4, `wrap "" ""` is
`"Og=="`, and it is a body without `'='` followed by no, one or two `'='` when
`(m + n + 1) % 3` is 0, 2 or 1. -/
theorem wrap_length (s o : List Byte) :
    (wrap s o).length = 4 * ((s.length + o.length + 1 + 2) / 3) ∧
    (∃ k, (wrap s o).length = 4 * k ∧ s.length + o.length + 1 ≤ 3 * k ∧
      3 * k < s.length + o.length + 1 + 3) ∧
    wrap s o ≠ [] ∧ (wrap s o).length % 4 = 0 ∧ 4 ≤ (wrap s o).length ∧
    wrap [] [] = ascii "Og==" ∧
    (∃ body, (61 : Byte) ∉ body ∧
      (((s.length + o.length + 1) % 3 = 0 ∧ wrap s o = body) ∨
       ((s.length + o.length + 1) % 3 = 2 ∧ wrap s o = body ++ [61]) ∨
       ((s.length + o.length + 1) % 3 = 1 ∧ wrap s o = body ++ [61, 61]))) := by
  have hlen : (s ++ idDelimiter ++ o).length = s.length + o.length + 1 := by
    simp only [idDelimiter, List.length_append, List.length_singleton]; omega
  have h1 : (wrap s o).length = 4 * ((s.length + o.length + 1 + 2) / 3) := by
    unfold wrap EncodeToString
    rw [Encode_length, hlen]
  refine ⟨h1, ⟨(s.length + o.length + 1 + 2) / 3, h1, by omega, by omega⟩, ?_, by omega,
    by omega, by decide, ?_⟩
  · intro h
    rw [h] at h1
    simp only [List.length_nil] at h1
    omega
  · obtain ⟨body, hb, hc⟩ := Encode_padding (s ++ idDelimiter ++ o)
    rw [hlen] at hc
    exact ⟨body, fun h61 => (encodeURL_not_special 61 (hb 61 h61)).2.2 rfl, hc⟩
